import Mathlib

/-!
# Verification of the go-tree-sitter-highlight core

Shallow embedding of the syntax-highlighting engine of
`noClaps/go-tree-sitter-highlight`: the range arithmetic
(`intersectRanges`, highlight.go), the configuration builder
(`NewConfiguration` / `Configure`, config.go), the layer constructor
(`newIterLayers`, iter_layer.go), the layer sort key and layer list
maintenance (`sortKey.compare`, `iterator.sortLayers`,
`iterator.insertLayer`), and the streaming highlight iterator
(`iterator.next` / `iterator.emitEvents`).

The underlying tree-sitter parser and query engine are external
collaborators (spec §1): trees, query matches and capture streams are
modelled as explicit data (byte ranges, pattern indices, capture indices,
node identities), and the places where the engine re-parses an injected
sub-document are parameterised by an oracle so that the proved invariants
hold for every behaviour of the external parser.

All byte offsets are natural numbers; Go's `^uint(0)` sentinel is the
constant `UINTMAX` (the code only ever compares against it, never wraps).
-/

/-- Go's `^uint(0)` (all-ones, 64-bit) used as an "infinity" sentinel in
ranges; the code only compares against it, so overflow never occurs. -/
def UINTMAX : Nat := 2 ^ 64 - 1

/-- `tree_sitter.Range`, bytes only.  The `Point` fields of the Go struct
never influence which byte ranges are produced or how events are ordered,
so they are omitted. -/
structure TSRange where
  startByte : Nat
  endByte : Nat
deriving Repr, DecidableEq

/-- A syntax-tree node as `intersectRanges` observes it: its own byte
range and the byte ranges of its direct children (in tree order). -/
structure SNode where
  startByte : Nat
  endByte : Nat
  children : List TSRange
deriving Repr, DecidableEq

/-- The innermost `for parentRange.StartByte <= r.EndByte` loop of
`intersectRanges` (highlight.go).  State is the candidate range `r`, the
current `parentRange`, the remaining `parentRanges` and the accumulated
`result`.  `.inl` is normal loop exit (`break` or condition false),
`.inr` is the early `return result` taken when the parent ranges are
exhausted. -/
def irWhile (r parent : TSRange) (parents result : List TSRange) :
    (TSRange × List TSRange × List TSRange) ⊕ List TSRange :=
  if parent.startByte ≤ r.endByte then
    if parent.endByte > r.startByte then
      let r1 := if r.startByte < parent.startByte then { r with startByte := parent.startByte } else r
      if parent.endByte < r1.endByte then
        let result1 := if r1.startByte < parent.endByte then
          result ++ [⟨r1.startByte, parent.endByte⟩] else result
        let r2 := { r1 with startByte := parent.endByte }
        match parents with
        | p :: ps => irWhile r2 p ps result1
        | [] => .inr result1
      else
        let result1 := if r1.startByte < r1.endByte then result ++ [r1] else result
        .inl (parent, parents, result1)
    else
      match parents with
      | p :: ps => irWhile r p ps result
      | [] => .inr result
  else .inl (parent, parents, result)

/-- One iteration of the `for _, excludedRange := range excludedRanges`
loop of `intersectRanges`: build the candidate `r` from the preceding
range's end and the excluded range's start, apply the
`r.EndByte < parentRange.StartByte` guard (`continue`), then run the
inner while loop. -/
def irExcluded (precEnd : Nat) (excl parent : TSRange) (parents result : List TSRange) :
    (TSRange × List TSRange × List TSRange) ⊕ List TSRange :=
  let r : TSRange := ⟨precEnd, excl.startByte⟩
  if r.endByte < parent.startByte then .inl (parent, parents, result)
  else irWhile r parent parents result

/-- The excluded-ranges loop of `intersectRanges`; `precedingRange` is
threaded as just its end byte (only `precedingRange.EndByte` is read). -/
def irExcludedList (precEnd : Nat) (excls : List TSRange) (parent : TSRange)
    (parents result : List TSRange) :
    (TSRange × List TSRange × List TSRange) ⊕ List TSRange :=
  match excls with
  | [] => .inl (parent, parents, result)
  | e :: rest =>
    match irExcluded precEnd e parent parents result with
    | .inl (p, ps, res) => irExcludedList e.endByte rest p ps res
    | .inr res => .inr res

/-- Processing of one node in `intersectRanges`: the excluded ranges are
the node's direct children (unless `includesChildren`) followed by the
"following" sentinel range `[node.EndByte, ^uint(0))`. -/
def irNode (node : SNode) (includesChildren : Bool) (parent : TSRange)
    (parents result : List TSRange) :
    (TSRange × List TSRange × List TSRange) ⊕ List TSRange :=
  let excludedRanges := (if includesChildren then [] else node.children) ++ [⟨node.endByte, UINTMAX⟩]
  irExcludedList node.startByte excludedRanges parent parents result

/-- The `for _, node := range nodes` loop of `intersectRanges`. -/
def irNodes (nodes : List SNode) (includesChildren : Bool) (parent : TSRange)
    (parents result : List TSRange) : List TSRange :=
  match nodes with
  | [] => result
  | n :: rest =>
    match irNode n includesChildren parent parents result with
    | .inl (p, ps, res) => irNodes rest includesChildren p ps res
    | .inr res => res

/-- `intersectRanges` (highlight.go).  `none` models the two panics of the
Go function: `nodes[0].Walk()` on an empty node list, and the explicit
`panic` on an empty `parentRanges`. -/
def intersectRanges (parentRanges : List TSRange) (nodes : List SNode)
    (includesChildren : Bool) : Option (List TSRange) :=
  match nodes, parentRanges with
  | [], _ => none
  | _ :: _, [] => none
  | _ :: _, p :: ps => some (irNodes nodes includesChildren p ps [])

/-- Membership of a byte `x` in a half-open byte range. -/
def TSRange.containsB (r : TSRange) (x : Nat) : Bool :=
  decide (r.startByte ≤ x) && decide (x < r.endByte)

/-- Membership of a byte in the union of a list of half-open ranges. -/
def memRanges (x : Nat) (rs : List TSRange) : Bool :=
  rs.any fun r => r.containsB x

/-- Membership in the set the spec prescribes for `intersect_ranges`:
`(⋃ nodes \ ⋃ excluded_children) ∩ ⋃ parent_ranges`, where the excluded
children are all direct children of each node unless `includesChildren`. -/
def intersectSpecMem (parentRanges : List TSRange) (nodes : List SNode)
    (includesChildren : Bool) (x : Nat) : Bool :=
  (nodes.any fun n => TSRange.containsB ⟨n.startByte, n.endByte⟩ x)
    && (includesChildren || !(nodes.any fun n => memRanges x n.children))
    && memRanges x parentRanges

/-- Boolean check that a list of ranges is sorted and disjoint, with every
range non-empty (`start < end` and each range ending no later than the
next starts). -/
def rangesSortedDisjoint : List TSRange → Bool
  | [] => true
  | [r] => decide (r.startByte < r.endByte)
  | a :: b :: rest =>
    decide (a.startByte < a.endByte) && decide (a.endByte ≤ b.startByte)
      && rangesSortedDisjoint (b :: rest)

/-! ## Configuration builder (config.go / part_007 `Configure`) -/

/-- The `"local"` capture-property key (config.go `captureLocal`). -/
def captureLocal : List Char := "local".toList

/-- A property predicate of a query pattern, as `Query.PropertyPredicates`
reports it: a key plus whether the predicate is positive
(`#is? key`) or negative (`#is-not? key`). -/
structure PropPredicate where
  positive : Bool
  key : List Char
deriving Repr, DecidableEq

/-- The `nonLocalVariablePatterns` construction loop of `NewConfiguration`
(config.go).  `patternPredicates` lists, for each pattern index of the
compiled query in order, the property predicates of that pattern.  The Go
loop starts from an empty slice and appends `true` for a pattern with a
negative predicate on the capture name `local` (and appends nothing
otherwise). -/
def buildNonLocalVariablePatterns (patternPredicates : List (List PropPredicate)) : List Bool :=
  patternPredicates.foldl
    (fun acc preds =>
      if preds.any (fun p => !p.positive && decide (p.key = captureLocal)) then acc ++ [true]
      else acc)
    []

/-- Modelled from the spec: `non_local_variable_patterns[i]` is true iff
pattern `i` has a negative predicate on capture name `local` — one entry
per pattern. -/
def specNonLocalVariablePatterns (patternPredicates : List (List PropPredicate)) : List Bool :=
  patternPredicates.map fun preds =>
    preds.any fun p => !p.positive && decide (p.key = captureLocal)

/-- `strings.LastIndex(s, ".")` on a Go string modelled as a char list:
the index of the last `'.'`, or `none` when there is no dot. -/
def goLastDotIndex (s : List Char) : Option Nat :=
  match s.reverse.findIdx? (fun c => decide (c = '.')) with
  | some i => some (s.length - 1 - i)
  | none => none

/-- The per-capture-name loop of `Configuration.Configure` (part_007, also
inlined in `NewConfiguration` of config.go): look the name up in
`recognizedNames` (`slices.Index`); on failure truncate the name at its
last dot (`strings.LastIndex` / `captureName[:lastDot]`) and retry, giving
up when no dot remains.  The loop strictly shortens the name, so
`fuel = name.length + 1` always suffices; `none` on fuel exhaustion is
unreachable from `configureCaptureName`. -/
def configureNameLoop (recognized : List (List Char)) : Nat → List Char → Option Nat
  | 0, _ => none
  | fuel + 1, name =>
    match recognized.findIdx? (fun c => decide (c = name)) with
    | some j => some j
    | none =>
      match goLastDotIndex name with
      | none => none
      | some d => configureNameLoop recognized fuel (name.take d)

/-- `Configure` restricted to a single capture name. -/
def configureCaptureName (recognized : List (List Char)) (name : List Char) : Option Nat :=
  configureNameLoop recognized (name.length + 1) name

/-- `Configuration.Configure(recognizedNames)`: the resulting
`highlightIndices`, one entry per capture name of the query. -/
def configure (recognized : List (List Char)) (captureNames : List (List Char)) :
    List (Option Nat) :=
  captureNames.map (configureCaptureName recognized)

/-- Whether `p` is a dot-separated stem of `name`: a prefix of `name`
that is either the whole name or is followed immediately by a `'.'`. -/
def isDotStem (p name : List Char) : Bool :=
  decide (name.take p.length = p)
    && (decide (p.length = name.length) || decide (name.getD p.length ' ' = '.'))

/-- Modelled from the spec: the dot-separated stems of a capture name,
from the longest (the whole name) to the shortest. -/
def dotStems (name : List Char) : List (List Char) :=
  ((List.range (name.length + 1)).reverse).filterMap fun k =>
    if isDotStem (name.take k) name then some (name.take k) else none

/-- Modelled from the spec: the index assigned to a capture name is the
index in `recognized` of the first of the name's dot-separated stems,
tried from longest to shortest, that occurs in `recognized`. -/
def specCaptureIndex (recognized : List (List Char)) (name : List Char) : Option Nat :=
  (dotStems name).findSome? fun p => recognized.findIdx? fun c => decide (c = p)

/-! ## Events, capture streams, layers (part_007 / iter_layer.go) -/

/-- A highlight event (highlight.go `event` and its implementations).
Language names and the source are Go strings/bytes, modelled as char
lists. -/
inductive HEvent where
  | source (startByte endByte : Nat)
  | layerStart (languageName : List Char)
  | layerEnd
  | captureStart (highlight : Nat)
  | captureEnd
deriving Repr, DecidableEq

/-- One capture of a query match, as the iterator observes it: the
capture-name index (`capture.Index`), the captured node's identity (for
`Node.Equals`), its byte range, and the byte ranges of its direct
children (read only when the node becomes an injection content node). -/
structure StreamCapture where
  index : Nat
  nodeId : Nat
  nodeStart : Nat
  nodeEnd : Nat
  children : List TSRange
deriving Repr, DecidableEq

/-- A query match (`tree_sitter.QueryMatch`): an identity (for
`match.Remove()`), the pattern index, and the captures of the match. -/
structure StreamMatch where
  mid : Nat
  patternIndex : Nat
  captures : List StreamCapture
deriving Repr, DecidableEq

/-- One element of a capture stream: what `queryCapturesIter.Next()`
yields, a match plus the index of one of its captures. -/
structure StreamItem where
  m : StreamMatch
  idx : Nat
deriving Repr, DecidableEq

/-- `match.Captures[captureIndex]` (in-bounds for streams produced by the
query engine; the default is never reached on well-formed streams). -/
def StreamItem.capture (it : StreamItem) : StreamCapture :=
  it.m.captures.getD it.idx ⟨0, 0, 0, 0, []⟩

/-- A property setting of a query pattern (`tree_sitter.QueryProperty`):
key and value, as Go strings.  The value models `*prop.Value` (the code
dereferences it unconditionally). -/
structure PropSetting where
  key : List Char
  value : List Char
deriving Repr, DecidableEq

/-- Capture-property keys (config.go constants). -/
def captureInjectionCombined : List Char := "injection.combined".toList

def captureInjectionLanguage : List Char := "injection.language".toList

def captureInjectionSelf : List Char := "injection.self".toList

def captureInjectionParent : List Char := "injection.parent".toList

def captureInjectionIncludeChildren : List Char := "injection.include-children".toList

def captureLocalScopeInherits : List Char := "local.scope-inherits".toList

/-- The fields of `Configuration` that the iterator and the layer
constructor read.  `propertySettings` lists `Query.PropertySettings(i)`
per pattern `i`; `combinedInjectionsQuery` is `some (patternCount,
settings)` when the configuration retains a combined-injections query. -/
structure HConfig where
  languageName : List Char
  localsPatternIndex : Nat
  highlightsPatternIndex : Nat
  highlightIndices : List (Option Nat)
  nonLocalVariablePatterns : List Bool
  injectionContentCaptureIndex : Option Nat
  injectionLanguageCaptureIndex : Option Nat
  localScopeCaptureIndex : Option Nat
  localDefCaptureIndex : Option Nat
  localDefValueCaptureIndex : Option Nat
  localRefCaptureIndex : Option Nat
  propertySettings : List (List PropSetting)
  combinedInjectionsQuery : Option (Nat × List (List PropSetting))
deriving Repr, DecidableEq

/-- A local definition (iter_layer.go `localDef`); `name` is the slice of
the source bytes under the definition's range. -/
structure LocalDef where
  name : List Char
  rangeStart : Nat
  rangeEnd : Nat
  highlight : Option Nat
deriving Repr, DecidableEq

/-- A local scope (iter_layer.go `localScope`). -/
structure LocalScope where
  inherits : Bool
  rangeStart : Nat
  rangeEnd : Nat
  localDefs : List LocalDef
deriving Repr, DecidableEq

/-- The all-zero `localDef` (Go zero value), the `getLastD` default for
the just-appended definition (never reached: the list is non-empty). -/
def emptyLocalDef : LocalDef := { name := [], rangeStart := 0, rangeEnd := 0, highlight := none }

/-- The root scope every layer starts with (iter_layer.go, `ScopeStack`
initialiser): `[0, ^uint(0))`, non-inheriting, no definitions. -/
def rootLocalScope : LocalScope :=
  { inherits := false, rangeStart := 0, rangeEnd := UINTMAX, localDefs := [] }

/-- A language layer (iter_layer.go `iterLayer`).  `lid` models the Go
pointer identity of the layer (the iterator compares
`layer != h.LastLayer` by pointer).  `captures` is the remaining capture
stream; its head is what `peek` returns.  The last elements of
`highlightEndStack` and `scopeStack` are the stack tops.  The tree and
cursor are resources of the external engine and carry no event-relevant
data. -/
structure IterLayer where
  lid : Nat
  captures : List StreamItem
  config : HConfig
  highlightEndStack : List Nat
  scopeStack : List LocalScope
  ranges : List TSRange
  depth : Nat
deriving Repr, DecidableEq

/-- `sortKey` (iter_layer.go): offset, whether the offset is a capture
start, and the negated depth. -/
structure SortKey where
  offset : Nat
  start : Bool
  depth : Int
deriving Repr, DecidableEq

/-- `sortKey.compare` (iter_layer.go): lexicographic on (offset,
end-before-start, depth); returns -1, 0 or 1. -/
def SortKey.compare (k other : SortKey) : Int :=
  if k.offset < other.offset then -1
  else if k.offset > other.offset then 1
  else if !k.start && other.start then -1
  else if k.start && !other.start then 1
  else if k.depth < other.depth then -1
  else if k.depth > other.depth then 1
  else 0

/-- `sortKey.greaterThan`. -/
def SortKey.greaterThan (k other : SortKey) : Bool :=
  decide (SortKey.compare k other = 1)

/-- `sortKey.lessThan`. -/
def SortKey.lessThan (k other : SortKey) : Bool :=
  decide (SortKey.compare k other = -1)

/-- `iterLayer.sortKey` (iter_layer.go): the next capture's start byte
and the top of the highlight-end stack, combined into a key; `none` when
both are absent. -/
def IterLayer.sortKey (h : IterLayer) : Option SortKey :=
  let depth : Int := -(h.depth : Int)
  let nextStart := h.captures.head?.map fun it => it.capture.nodeStart
  let nextEnd := h.highlightEndStack.getLast?
  match nextStart, nextEnd with
  | some s, some e =>
    if s < e then some ⟨s, true, depth⟩ else some ⟨e, false, depth⟩
  | some s, none => some ⟨s, true, depth⟩
  | none, some e => some ⟨e, false, depth⟩
  | none, none => none

/-- `rotateLeft(s, 1)` (part_007): `append(s[1:], s[:1]...)`. -/
def rotateLeft1 {α : Type} (xs : List α) : List α :=
  xs.drop 1 ++ xs.take 1

/-- The inner index scan of `iterator.sortLayers` (part_007): how far
`i` advances past the layers following the head.  The Go loop advances
while the next layer's key is non-nil and `greaterThan` the head's key,
and stops at the first layer that fails the test. -/
def sortBubbleLen (key : SortKey) : List IterLayer → Nat
  | [] => 0
  | l :: rest =>
    match l.sortKey with
    | some k => if k.greaterThan key then 1 + sortBubbleLen key rest else 0
    | none => 0

/-- `iterator.sortLayers` (part_007): if the front layer has a key,
rotate it past the scanned span and stop; a front layer with no key is
retired (its cursor returns to the pool — a resource-only effect) and
the loop repeats. -/
def sortLayers : List IterLayer → List IterLayer
  | [] => []
  | l :: rest =>
    match l.sortKey with
    | some key =>
      let i := sortBubbleLen key rest
      if i > 0 then rotateLeft1 ((l :: rest).take (i + 1)) ++ (l :: rest).drop (i + 1)
      else l :: rest
    | none => sortLayers rest

/-- The scan of `iterator.insertLayer` (part_007) over the layers from
index 1 on: insert the new layer before the first layer whose key is
`lessThan` the new key; delete layers with no key; append at the end. -/
def insertLayerAux (key : SortKey) (layer : IterLayer) : List IterLayer → List IterLayer
  | [] => [layer]
  | l :: rest =>
    match l.sortKey with
    | some keyI =>
      if keyI.lessThan key then layer :: l :: rest
      else l :: insertLayerAux key layer rest
    | none => insertLayerAux key layer rest

/-- `iterator.insertLayer` (part_007).  A layer with no key is not
inserted; the scan starts at index 1, so the current front layer keeps
its position. -/
def insertLayer (layer : IterLayer) (layers : List IterLayer) : List IterLayer :=
  match layer.sortKey with
  | none => layers
  | some key =>
    match layers with
    | [] => [layer]
    | l0 :: rest => l0 :: insertLayerAux key layer rest

/-! ## The highlight iterator (part_007 `iterator`) -/

/-- `highlightRange`+iterator state (part_007 `iterator`).  The context,
highlighter (cursor pool) and injection callback are resources or are
abstracted into the step oracle; `lastLayer` stores the identity of the
layer that last produced events (Go compares pointers). -/
structure IterState where
  source : List Char
  languageName : List Char
  byteOffset : Nat
  layers : List IterLayer
  nextEvents : List (Option HEvent)
  lastHighlightRange : Option (Nat × Nat × Nat)
  lastLayer : Option Nat
deriving Repr, DecidableEq

/-- `source[a:b]` on the caller's source. -/
def sliceChars (s : List Char) (a b : Nat) : List Char :=
  (s.take b).drop a

/-- `iterator.emitEvents` (part_007): when the target offset is past the
current byte offset, emit a synthetic `Source` event first and queue the
given events; otherwise return the first given event and queue the rest.
`events.headD none` models `events[0]` (all call sites pass at least one
element, possibly the nil event).  `sortLayers` runs in both cases. -/
def emitEvents (st : IterState) (offset : Nat) (events : List (Option HEvent)) :
    Option HEvent × IterState :=
  if st.byteOffset < offset then
    (some (HEvent.source st.byteOffset offset),
     { st with byteOffset := offset,
               nextEvents := st.nextEvents ++ events,
               layers := sortLayers st.layers })
  else
    (events.headD none,
     { st with nextEvents := st.nextEvents ++ events.drop 1,
               layers := sortLayers st.layers })

/-- Replace the front layer of the state (the Go code mutates the layer
through the `layers[0]` pointer). -/
def updateFront (st : IterState) (f : IterLayer → IterLayer) : IterState :=
  { st with layers := match st.layers with
    | [] => []
    | l :: rest => f l :: rest }

/-- `injectionForMatch` (highlight.go): resolve the injected language
name, the content node's capture, and the include-children flag from a
match plus the pattern's property settings (`querySettings` indexed by
pattern, from whichever query produced the match). -/
def injectionForMatch (config : HConfig) (parentName : List Char)
    (querySettings : List (List PropSetting)) (m : StreamMatch) (source : List Char) :
    List Char × Option StreamCapture × Bool :=
  if config.injectionContentCaptureIndex = none ∨ config.injectionLanguageCaptureIndex = none then
    ([], none, false)
  else
    let fromCaptures := m.captures.foldl
      (fun (acc : List Char × Option StreamCapture) capture =>
        if some capture.index = config.injectionLanguageCaptureIndex then
          (sliceChars source capture.nodeStart capture.nodeEnd, acc.2)
        else if some capture.index = config.injectionContentCaptureIndex then
          (acc.1, some capture)
        else acc)
      ([], none)
    let settings := querySettings.getD m.patternIndex []
    let fromSettings := settings.foldl
      (fun (acc : List Char × Bool) prop =>
        if prop.key = captureInjectionLanguage then
          (if acc.1 = [] then prop.value else acc.1, acc.2)
        else if prop.key = captureInjectionSelf then
          (if acc.1 = [] then config.languageName else acc.1, acc.2)
        else if prop.key = captureInjectionParent then
          (if acc.1 = [] then parentName else acc.1, acc.2)
        else if prop.key = captureInjectionIncludeChildren then
          (acc.1, true)
        else acc)
      (fromCaptures.1, false)
    (fromSettings.1, fromCaptures.2, fromSettings.2)

/-- The `for r.StartByte > top.Range.EndByte { pop }` scope cleanup of
`iterator.next` (part_007 line 400): drop ended scopes from the top of
the stack.  The root scope ends at `^uint(0)`, so the stack never
empties in the composed program. -/
def popEndedScopes (startByte : Nat) (ss : List LocalScope) : List LocalScope :=
  (ss.reverse.dropWhile fun sc => decide (startByte > sc.rangeEnd)).reverse

/-- The backward search over one scope's definitions in the
`local.reference` branch (part_007 lines 454-468): iterate the
definitions from last to first, remembering the highlight of each whose
name matches and which ends at or before the reference; then either take
the remembered highlight, stop at a non-inheriting scope, or continue
into the next scope down.  Applied to the reversed scope stack. -/
def refLookup (name : List Char) (startByte : Nat) : List LocalScope → Option Nat
  | [] => none
  | scope :: restScopes =>
    let highlight := scope.localDefs.reverse.foldl
      (fun (acc : Option Nat) d =>
        if d.name = name ∧ startByte ≥ d.rangeEnd then d.highlight else acc)
      none
    if highlight ≠ none then highlight
    else if !scope.inherits then none
    else refLookup name startByte restScopes

/-- Result of the locals-processing loop of `iterator.next` (part_007
lines 408-484): either `continue main` was reached, or the loop fell
through to the highlight code with the current match/capture and the
reference/definition highlights. -/
inductive LocalsOutcome where
  | continueMain (captures : List StreamItem) (scopes : List LocalScope)
  | highlight (captures : List StreamItem) (scopes : List LocalScope)
      (m : StreamMatch) (capture : StreamCapture) (refH defH : Option Nat)
deriving Repr, DecidableEq

/-- The `for match.PatternIndex < HighlightsPatternIndex` loop of
`iterator.next` (part_007).  `r` is `nextCaptureRange`, fixed at the
first peek.  The `local.definition` branch copies the top scope by value
(Go struct copy) and appends the new definition to the copy only, so the
scope stack itself is returned unchanged by that branch, and the
definition highlight read back from the copy is `none`. -/
def localsLoop (cfg : HConfig) (source : List Char) (r : Nat × Nat) :
    StreamMatch → StreamCapture → Option Nat → Option Nat → List LocalScope →
    List StreamItem → LocalsOutcome
  | m, capture, refH, defH, scopes, captures =>
    if m.patternIndex < cfg.highlightsPatternIndex then
      let step : List LocalScope × Option Nat × Option Nat :=
        if cfg.localScopeCaptureIndex ≠ none ∧ some capture.index = cfg.localScopeCaptureIndex then
          let scope0 : LocalScope :=
            { inherits := true, rangeStart := r.1, rangeEnd := r.2, localDefs := [] }
          let scope := (cfg.propertySettings.getD m.patternIndex []).foldl
            (fun sc prop =>
              if prop.key = captureLocalScopeInherits then
                { sc with inherits := decide (prop.value = "true".toList) }
              else sc)
            scope0
          (scopes ++ [scope], refH, none)
        else if cfg.localDefCaptureIndex ≠ none ∧ some capture.index = cfg.localDefCaptureIndex then
          match scopes.getLast? with
          | none => (scopes, none, none)
          | some scope =>
            let valueRangeEnd := m.captures.foldl
              (fun acc mc =>
                if cfg.localDefValueCaptureIndex ≠ none ∧
                    some mc.index = cfg.localDefValueCaptureIndex then mc.nodeEnd
                else acc)
              0
            if source.length > r.1 ∧ source.length > valueRangeEnd then
              let name := sliceChars source r.1 r.2
              let newDef : LocalDef :=
                { name := name, rangeStart := r.1, rangeEnd := r.2, highlight := none }
              let scopeCopy := { scope with localDefs := scope.localDefs ++ [newDef] }
              (scopes, none, (scopeCopy.localDefs.getLastD emptyLocalDef).highlight)
            else (scopes, none, none)
        else if cfg.localRefCaptureIndex ≠ none ∧ some capture.index = cfg.localRefCaptureIndex
            ∧ defH = none then
          if source.length > r.1 ∧ source.length > r.2 then
            let name := sliceChars source r.1 r.2
            match refLookup name r.1 scopes.reverse with
            | some h => (scopes, some h, none)
            | none => (scopes, refH, none)
          else (scopes, refH, none)
        else (scopes, refH, defH)
      match captures with
      | next :: moreRest =>
        if next.capture.nodeId = capture.nodeId then
          localsLoop cfg source r next.m next.capture step.2.1 step.2.2 step.1 moreRest
        else .continueMain captures step.1
      | [] => .continueMain captures step.1
    else .highlight captures scopes m capture refH defH

/-- The overshadow loop of `iterator.next` (part_007 lines 502-524):
keep consuming later captures for the same node; a capture is skipped
(consumed and dropped) when the node was a local variable and the
pattern is disabled for locals, otherwise the old match is removed
(`match.Remove()`: its remaining captures leave the stream) and the new
match/capture become current.  Returns the surviving match and capture
and the remaining stream.  Every iteration consumes at least one stream
item, so a fuel equal to the stream's length makes the fuel-0 fallback
unreachable (at fuel 0 the stream is already empty). -/
def overshadow (cfg : HConfig) :
    Nat → StreamMatch → StreamCapture → Option Nat → Option Nat → List StreamItem →
    StreamMatch × StreamCapture × List StreamItem
  | 0, m, capture, _, _, captures => (m, capture, captures)
  | fuel + 1, m, capture, refH, defH, captures =>
    match captures with
    | [] => (m, capture, [])
    | next :: restItems =>
      if next.capture.nodeId = capture.nodeId then
        let followingMatch := next.m
        if defH ≠ none ∨
            (refH ≠ none ∧ cfg.nonLocalVariablePatterns.getD followingMatch.patternIndex false) then
          overshadow cfg fuel m capture refH defH restItems
        else
          overshadow cfg fuel followingMatch next.capture refH defH
            (restItems.filter fun it => decide (it.m.mid ≠ m.mid))
      else (m, capture, next :: restItems)

/-- The result of one iteration of the `main:` loop of `iterator.next`
(part_007): either the iteration returned an event (`yield`, where
`none` is Go's nil event, which ends the stream), or it reached
`continue main`. -/
inductive StepResult where
  | yield (e : Option HEvent) (st : IterState)
  | again (st : IterState)
deriving Repr, DecidableEq

/-- The oracle standing for lines 380-391 of part_007: the injection
callback, `intersectRanges` over the live content node, and
`newIterLayers` over the re-parsed sub-document — all behaviour of the
external parser/query engine.  It receives the state (after the match
was removed), the front layer and the consumed injection item, and
returns the layers to insert.  Proved invariants hold for every oracle. -/
def InjectOracle : Type :=
  IterState → IterLayer → StreamItem → List IterLayer

/-- The highlight-pattern tail of the loop body (part_007 lines 486-552):
idempotence check against `lastHighlightRange`, the overshadow loop,
highlight resolution, and the `CaptureStart` emission. -/
def highlightStep (st : IterState) (layer : IterLayer) (rest : List IterLayer)
    (m : StreamMatch) (capture : StreamCapture) (r : Nat × Nat)
    (refH defH : Option Nat) : StepResult :=
  let suppressed : Bool :=
    match st.lastHighlightRange with
    | some (ls, le, ld) => decide (r.1 = ls) && decide (r.2 = le) && decide (layer.depth < ld)
    | none => false
  if suppressed then .again { st with layers := sortLayers (layer :: rest) }
  else
    let (_, capture', remaining) :=
      overshadow layer.config layer.captures.length m capture refH defH layer.captures
    let layer1 := { layer with captures := remaining }
    let currentHighlight := layer1.config.highlightIndices.getD capture'.index none
    let highlight := match refH with
      | some h => some h
      | none => currentHighlight
    match highlight with
    | some h =>
      let layer2 := { layer1 with highlightEndStack := layer1.highlightEndStack ++ [r.2] }
      let st1 := { st with layers := layer2 :: rest,
                           lastHighlightRange := some (r.1, r.2, layer1.depth) }
      let (e, st2) := emitEvents st1 r.1 [some (HEvent.captureStart h)]
      .yield e st2
    | none => .again { st with layers := sortLayers (layer1 :: rest) }

/-- The capture-consumption part of the loop body (part_007 lines
366-552): pop the peeked capture, dispatch on the pattern index
(injection / locals / highlight). -/
def stepConsume (inject : InjectOracle) (st : IterState) (layer : IterLayer)
    (rest : List IterLayer) (item : StreamItem) (itemsRest : List StreamItem) : StepResult :=
  let m := item.m
  let capture := item.capture
  let r := (capture.nodeStart, capture.nodeEnd)
  let layer1 := { layer with captures := itemsRest }
  if m.patternIndex < layer1.config.localsPatternIndex then
    let res := injectionForMatch layer1.config st.languageName layer1.config.propertySettings
      m st.source
    let removed := layer1.captures.filter (fun it => decide (it.m.mid ≠ m.mid))
    let layer2 := { layer1 with captures := removed }
    let st1 := { st with layers := layer2 :: rest }
    let newLayers := if res.1 ≠ [] ∧ res.2.1 ≠ none then inject st1 layer2 item else []
    let st2 := { st1 with layers := newLayers.foldl (fun ls nl => insertLayer nl ls) st1.layers }
    .again { st2 with layers := sortLayers st2.layers }
  else
    let layer2 := { layer1 with scopeStack := popEndedScopes r.1 layer1.scopeStack }
    match localsLoop layer2.config st.source r m capture none none layer2.scopeStack
        layer2.captures with
    | .continueMain captures' scopes' =>
      let layer3 := { layer2 with captures := captures', scopeStack := scopes' }
      .again { st with layers := sortLayers (layer3 :: rest) }
    | .highlight captures' scopes' m' capture' refH defH =>
      let layer3 := { layer2 with captures := captures', scopeStack := scopes' }
      highlightStep st layer3 rest m' capture' r refH defH

/-- One iteration of the `main:` loop of `iterator.next` (part_007 lines
296-552).  Cancellation is modelled as absent (Go's
`context.Background()`), and the error returned when a freshly parsed
injection layer fails is outside the oracle (the claims concern
successful streams). -/
def stepOnce (inject : InjectOracle) (st : IterState) : StepResult :=
  match st.nextEvents with
  | e :: restEvents => .yield e { st with nextEvents := restEvents }
  | [] =>
    match st.layers with
    | [] =>
      if st.byteOffset < st.source.length then
        .yield (some (HEvent.source st.byteOffset st.source.length))
          { st with byteOffset := st.source.length }
      else .yield none st
    | layer :: restLayers =>
      if st.lastLayer ≠ some layer.lid then
        let evs := (if st.lastLayer ≠ none then [some HEvent.layerEnd] else [])
          ++ [some (HEvent.layerStart layer.config.languageName)]
        let st1 := { st with lastLayer := some layer.lid }
        let (e, st2) := emitEvents st1 st1.byteOffset evs
        .yield e st2
      else
        match layer.captures with
        | item :: itemsRest =>
          let rStart := item.capture.nodeStart
          match layer.highlightEndStack.getLast? with
          | some endByte =>
            if endByte ≤ rStart then
              let st1 := updateFront st (fun l =>
                { l with highlightEndStack := l.highlightEndStack.dropLast })
              let (e, st2) := emitEvents st1 endByte [some HEvent.captureEnd]
              .yield e st2
            else stepConsume inject st layer restLayers item itemsRest
          | none => stepConsume inject st layer restLayers item itemsRest
        | [] =>
          match layer.highlightEndStack.getLast? with
          | some endByte =>
            let st1 := updateFront st (fun l =>
              { l with highlightEndStack := l.highlightEndStack.dropLast })
            let (e, st2) := emitEvents st1 endByte [some HEvent.captureEnd]
            .yield e st2
          | none =>
            let (e, st2) := emitEvents st st.source.length [none]
            .yield e st2

/-- `iterator.next` with explicit fuel over the `continue main` loop:
`none` when the fuel runs out, otherwise the returned event (where a
`none` event ends the stream) and the successor state. -/
def nextEventFuel (inject : InjectOracle) : Nat → IterState → Option (Option HEvent × IterState)
  | 0, _ => none
  | fuel + 1, st =>
    match stepOnce inject st with
    | .yield e st' => some (e, st')
    | .again st' => nextEventFuel inject fuel st'

/-- The event stream `Highlighter.Highlight` hands to the consumer
(part_006 lines 127-148): pull events until `next` returns the nil
event.  Fuel bounds the number of loop iterations; the final flag is
`true` when the stream finished (the nil event was returned) within the
fuel. -/
def runEvents (inject : InjectOracle) : Nat → IterState → List HEvent × IterState × Bool
  | 0, st => ([], st, false)
  | fuel + 1, st =>
    match stepOnce inject st with
    | .yield none st' => ([], st', true)
    | .yield (some e) st' =>
      let res := runEvents inject fuel st'
      (e :: res.1, res.2.1, res.2.2)
    | .again st' => runEvents inject fuel st'

/-- The iterator state `Highlighter.Highlight` constructs (part_006
lines 114-125): offset 0, no queued events, no last highlight or layer,
and the freshly built layers sorted once. -/
def mkInitState (source languageName : List Char) (layers : List IterLayer) : IterState :=
  { source := source, languageName := languageName, byteOffset := 0,
    layers := sortLayers layers, nextEvents := [], lastHighlightRange := none,
    lastLayer := none }

/-! ## The layer constructor (iter_layer.go `newIterLayers`) -/

/-- `injectionItem` (iter_layer.go): one grouped combined injection. -/
structure CombinedInjection where
  languageName : List Char
  nodes : List StreamCapture
  includeChildren : Bool
deriving Repr, DecidableEq

/-- `highlightQueueItem` (iter_layer.go). -/
structure QueueItem where
  config : HConfig
  depth : Nat
  ranges : List TSRange
deriving Repr, DecidableEq

/-- The grouping loop over combined-injection matches (iter_layer.go
lines 109-127): one `injectionItem` per pattern of the combined query;
for each match, the resolved language name is written to the group only
under the `languageName == ""` guard (writing the empty name), content
nodes are appended, and the include-children flag is overwritten. -/
def groupCombined (cfg : HConfig) (parentName source : List Char) (patternCount : Nat)
    (combinedSettings : List (List PropSetting)) (ms : List StreamMatch) :
    List CombinedInjection :=
  ms.foldl
    (fun groups m =>
      let res := injectionForMatch cfg parentName combinedSettings m source
      let g0 := groups.getD m.patternIndex ⟨[], [], false⟩
      let g1 := if res.1 = [] then { g0 with languageName := res.1 } else g0
      let g2 := match res.2.1 with
        | some c => { g1 with nodes := g1.nodes ++ [c] }
        | none => g1
      let g3 := { g2 with includeChildren := res.2.2 }
      groups.set m.patternIndex g3)
    (List.replicate patternCount ⟨[], [], false⟩)

/-- The enqueueing loop over the grouped combined injections
(iter_layer.go lines 129-143).  Returns the queue items added and the
language names for which the injection callback was invoked. -/
def combinedEnqueue (cb : List Char → Option HConfig) (parentRanges : List TSRange)
    (depth : Nat) (groups : List CombinedInjection) :
    List QueueItem × List (List Char) :=
  groups.foldl
    (fun (acc : List QueueItem × List (List Char)) injection =>
      if injection.languageName ≠ [] ∧ injection.nodes ≠ [] then
        match cb injection.languageName with
        | some nextConfig =>
          let nextRanges := (intersectRanges parentRanges
            (injection.nodes.map fun c => ⟨c.nodeStart, c.nodeEnd, c.children⟩)
            injection.includeChildren).getD []
          if nextRanges ≠ [] then
            (acc.1 ++ [⟨nextConfig, depth + 1, nextRanges⟩], acc.2 ++ [injection.languageName])
          else (acc.1, acc.2 ++ [injection.languageName])
        | none => (acc.1, acc.2 ++ [injection.languageName])
      else acc)
    ([], [])

/-- The external parser and query engine, as `newIterLayers` uses them:
whether `SetIncludedRanges` succeeds, the matches of the combined
injections query on the parsed tree, and the capture stream of the main
query.  (Parsing itself and `SetLanguage` errors are absorbed into
these.) -/
structure ParseOracle where
  setRangesOk : List TSRange → Bool
  combinedMatches : HConfig → List TSRange → List StreamMatch
  captureStream : HConfig → List TSRange → List StreamItem

/-- The body of one iteration of the `for {}` loop of `newIterLayers`
(iter_layer.go lines 96-178): parse, process combined injections, build
the capture stream, and append a layer unless the stream is empty.
Returns the updated result, the queue additions, and whether the
empty-stream `continue` was taken. -/
def newIterLayersBody (po : ParseOracle) (cb : List Char → Option HConfig)
    (source parentName : List Char) (config : HConfig) (depth : Nat)
    (ranges : List TSRange) (result : List IterLayer) :
    List IterLayer × List QueueItem × Bool :=
  if po.setRangesOk ranges then
    let queueAdd :=
      match config.combinedInjectionsQuery with
      | some pc =>
        let groups := groupCombined config parentName source pc.1 pc.2
          (po.combinedMatches config ranges)
        (combinedEnqueue cb ranges depth groups).1
      | none => []
    let stream := po.captureStream config ranges
    if stream = [] then (result, queueAdd, true)
    else
      (result ++ [{ lid := result.length, captures := stream, config := config,
                    highlightEndStack := [], scopeStack := [rootLocalScope],
                    ranges := ranges, depth := depth }],
       queueAdd, false)
  else (result, [], false)

/-- The driver loop of `newIterLayers` (iter_layer.go lines 96-190), with
explicit fuel; `none` models non-termination (fuel exhausted).  Key
transcriptions: the empty-stream `continue` jumps back to the top of the
loop with the same item, skipping the dequeue at the bottom; and the
dequeue itself is `next, queue = queue[0], append(queue, queue[1:]...)`,
which reads the head but appends the tail instead of dropping the head. -/
def newIterLayersLoop (po : ParseOracle) (cb : List Char → Option HConfig)
    (source parentName : List Char) :
    Nat → HConfig → Nat → List TSRange → List IterLayer → List QueueItem →
    Option (List IterLayer)
  | 0, _, _, _, _, _ => none
  | fuel + 1, config, depth, ranges, result, queue =>
    let body := newIterLayersBody po cb source parentName config depth ranges result
    let queue1 := queue ++ body.2.1
    if body.2.2 then
      newIterLayersLoop po cb source parentName fuel config depth ranges body.1 queue1
    else
      match queue1 with
      | [] => some body.1
      | q :: qrest =>
        newIterLayersLoop po cb source parentName fuel q.config q.depth q.ranges body.1
          (queue1 ++ qrest)

/-- `newIterLayers` (iter_layer.go): run the driver loop with the given
fuel from an empty result and queue. -/
def newIterLayersGo (po : ParseOracle) (cb : List Char → Option HConfig)
    (source parentName : List Char) (config : HConfig) (depth : Nat)
    (ranges : List TSRange) (fuel : Nat) : Option (List IterLayer) :=
  newIterLayersLoop po cb source parentName fuel config depth ranges [] []

/-- The `next, queue = queue[0], append(queue, queue[1:]...)` dequeue of
`newIterLayers` in isolation: the value read and the queue left behind. -/
def goDequeue (queue : List QueueItem) : Option (QueueItem × List QueueItem) :=
  match queue with
  | [] => none
  | q :: qrest => some (q, (q :: qrest) ++ qrest)

/-- The whole-source range `Highlight` seeds the root layer with
(part_006 lines 94-107). -/
def wholeSourceRange : TSRange := ⟨0, UINTMAX⟩

/-- The composed pipeline of `Highlighter.Highlight` (part_006): build
the layers with `newIterLayers` over the whole-source range, construct
the iterator state, and pull the event stream.  `none` when layer
construction does not terminate within its fuel. -/
def highlightPipeline (po : ParseOracle) (cb : List Char → Option HConfig)
    (inject : InjectOracle) (cfg : HConfig) (source : List Char)
    (layerFuel runFuel : Nat) : Option (List HEvent × Bool) :=
  match newIterLayersGo po cb source [] cfg 0 [wholeSourceRange] layerFuel with
  | none => none
  | some layers =>
    let res := runEvents inject runFuel (mkInitState source cfg.languageName layers)
    some (res.1, res.2.2)

/-! ## Concrete example inputs used by the theorems and witnesses -/

/-- A minimal configuration: no injections, no locals, every pattern a
highlight pattern, one capture name themed to index 0. -/
def exCfg : HConfig :=
  { languageName := "L".toList, localsPatternIndex := 0, highlightsPatternIndex := 0,
    highlightIndices := [some 0], nonLocalVariablePatterns := [],
    injectionContentCaptureIndex := none, injectionLanguageCaptureIndex := none,
    localScopeCaptureIndex := none, localDefCaptureIndex := none,
    localDefValueCaptureIndex := none, localRefCaptureIndex := none,
    propertySettings := [], combinedInjectionsQuery := none }

/-- A parse oracle whose main-query capture stream is empty (the query
matches nothing); ranges are always accepted and the combined query
yields no matches. -/
def exPoEmpty : ParseOracle :=
  { setRangesOk := fun _ => true, combinedMatches := fun _ _ => [],
    captureStream := fun _ _ => [] }

/-- An injection callback that knows no language. -/
def exNoCb : List Char → Option HConfig := fun _ => none

/-- An injection oracle that constructs no layers. -/
def exNoInject : InjectOracle := fun _ _ _ => []

/-- One highlight capture over the node `[0,1)` (capture name 0,
pattern 0, match 0). -/
def exItem1 : StreamItem :=
  { m := { mid := 0, patternIndex := 0,
           captures := [{ index := 0, nodeId := 1, nodeStart := 0, nodeEnd := 1, children := [] }] },
    idx := 0 }

/-- A parse oracle whose capture stream is the single highlight capture
`exItem1`. -/
def exPoS1 : ParseOracle :=
  { setRangesOk := fun _ => true, combinedMatches := fun _ _ => [],
    captureStream := fun _ _ => [exItem1] }

/-- The event stream the scenario-S1 pipeline produces. -/
def exS1Events : List HEvent :=
  [HEvent.layerStart "L".toList, HEvent.captureStart 0, HEvent.source 0 1, HEvent.captureEnd]

/-- A single-capture layer (used for the idempotence-check states). -/
def exLayer1 : IterLayer :=
  { lid := 0, captures := [exItem1], config := exCfg, highlightEndStack := [],
    scopeStack := [rootLocalScope], ranges := [wholeSourceRange], depth := 0 }

/-- A depth-2 layer whose next capture is the highlight node `[0,1)`. -/
def exLayerC4deep : IterLayer :=
  { exLayer1 with lid := 12, depth := 2 }

/-- Iterator state whose recorded last highlight range is `(0,1)` at
depth 1 and whose front layer is the depth-2 layer: the front layer's
next capture covers exactly the recorded range and is deeper. -/
def exStC4deep : IterState :=
  { source := "x".toList, languageName := "L".toList, byteOffset := 0,
    layers := [exLayerC4deep], nextEvents := [], lastHighlightRange := some (0, 1, 1),
    lastLayer := some 12 }

/-- A depth-0 layer whose next capture is the highlight node `[0,1)`. -/
def exLayerC4shallow : IterLayer :=
  { exLayer1 with lid := 13 }

/-- The same state with a depth-0 (shallower than the recorded depth-1)
front layer. -/
def exStC4shallow : IterState :=
  { exStC4deep with layers := [exLayerC4shallow], lastLayer := some 13 }

/-- The event of a step result, discarding the successor state. -/
def stepEvent : StepResult → Option (Option HEvent)
  | .yield e _ => some e
  | .again _ => none

/-- A configuration with a locals segment: patterns 0 and 1 are locals
patterns, capture 0 is `local.definition`, capture 1 is
`local.reference`. -/
def exCfgLoc : HConfig :=
  { exCfg with
    highlightsPatternIndex := 2
    localDefCaptureIndex := some 0
    localRefCaptureIndex := some 1
    highlightIndices := [some 3, some 4] }

/-- A `local.definition` capture over the node `[0,1)` (the identifier
`x` of the example source). -/
def exDefItem : StreamItem :=
  { m := { mid := 0, patternIndex := 0,
           captures := [{ index := 0, nodeId := 1, nodeStart := 0, nodeEnd := 1, children := [] }] },
    idx := 0 }

/-- A later `local.reference` capture over the node `[2,3)`. -/
def exRefItem : StreamItem :=
  { m := { mid := 1, patternIndex := 1,
           captures := [{ index := 1, nodeId := 2, nodeStart := 2, nodeEnd := 3, children := [] }] },
    idx := 0 }

/-- A layer about to process the definition capture, with the reference
capture pending. -/
def exLayerLoc : IterLayer :=
  { lid := 20, captures := [exDefItem, exRefItem], config := exCfgLoc,
    highlightEndStack := [], scopeStack := [rootLocalScope],
    ranges := [wholeSourceRange], depth := 0 }

/-- Iterator state over source `"x y"` whose front layer is about to
process the `local.definition` capture for `x`. -/
def exStLoc : IterState :=
  { source := "x y".toList, languageName := "L".toList, byteOffset := 0,
    layers := [exLayerLoc], nextEvents := [], lastHighlightRange := none,
    lastLayer := some 20 }

/-- The state after the definition capture is processed: the capture is
consumed but the scope stack is unchanged — no `LocalDef` was added. -/
def exStLocAfter : IterState :=
  { exStLoc with layers := [{ exLayerLoc with captures := [exRefItem] }] }

/-- A combined-injection match: capture 0 is `injection.language` over
the bytes `[3,6)` (`"css"` in the example source), capture 1 is
`injection.content` over `[8,12)`. -/
def exCombMatch : StreamMatch :=
  { mid := 0, patternIndex := 0,
    captures := [{ index := 0, nodeId := 1, nodeStart := 3, nodeEnd := 6, children := [] },
                 { index := 1, nodeId := 2, nodeStart := 8, nodeEnd := 12, children := [] }] }

/-- The content node of `exCombMatch`. -/
def exCombContent : StreamCapture :=
  { index := 1, nodeId := 2, nodeStart := 8, nodeEnd := 12, children := [] }

/-- The source the combined-injection example reads `"css"` from. -/
def exCombSource : List Char := "zzzcssZZcontent!".toList

/-- A configuration with a one-pattern combined-injections query and the
two reserved injection capture indices. -/
def exCfgComb : HConfig :=
  { exCfg with
    injectionLanguageCaptureIndex := some 0
    injectionContentCaptureIndex := some 1
    combinedInjectionsQuery := some (1, [[]]) }

/-- Queue items for the dequeue example. -/
def exQ1 : QueueItem := { config := exCfg, depth := 1, ranges := [⟨0, 2⟩] }

/-- Second queue item for the dequeue example. -/
def exQ2 : QueueItem := { config := exCfg, depth := 2, ranges := [⟨3, 5⟩] }

/-- A single-capture stream item whose node starts at byte `o`. -/
def exKeyItem (lid o : Nat) : StreamItem :=
  { m := { mid := lid, patternIndex := 0,
           captures := [{ index := 0, nodeId := lid, nodeStart := o, nodeEnd := o + 1, children := [] }] },
    idx := 0 }

/-- A depth-0 layer whose sort key is `(o, start)`. -/
def exKeyLayer (lid o : Nat) : IterLayer :=
  { lid := lid, captures := [exKeyItem lid o], config := exCfg, highlightEndStack := [],
    scopeStack := [rootLocalScope], ranges := [wholeSourceRange], depth := 0 }

/-- Per-pattern property predicates of a two-pattern query: pattern 0
has no predicates, pattern 1 has the negative `local` predicate. -/
def exPredicates : List (List PropPredicate) :=
  [[], [{ positive := false, key := captureLocal }]]

/-! ## Specification-side predicates for `intersectRanges` -/

/-- Range `a` ends no later than range `b` starts (sorted-disjoint
adjacency). -/
def RLe (a b : TSRange) : Prop := a.endByte ≤ b.startByte

/-- Propositional membership in the union of a list of half-open
ranges. -/
def MemR (x : Nat) (rs : List TSRange) : Prop :=
  ∃ q ∈ rs, q.startByte ≤ x ∧ x < q.endByte

/-- A sorted, disjoint list of non-empty ranges. -/
def SortedDisj (rs : List TSRange) : Prop :=
  List.Chain' RLe rs ∧ ∀ q ∈ rs, q.startByte < q.endByte

/-- Every range of the list ends at or before `b`. -/
def Below (rs : List TSRange) (b : Nat) : Prop := ∀ q ∈ rs, q.endByte ≤ b

/-- Well-formed parent ranges: sorted, disjoint, each a real range. -/
def ParentsWF (ps : List TSRange) : Prop :=
  List.Chain' RLe ps ∧ ∀ p ∈ ps, p.startByte ≤ p.endByte

/-- The gaps a node walk produces: the candidate intervals
`[precEnd, e.start)` between consecutive excluded ranges. -/
def gapsMem (precEnd : Nat) (excls : List TSRange) (x : Nat) : Prop :=
  match excls with
  | [] => False
  | e :: rest => (precEnd ≤ x ∧ x < e.startByte) ∨ gapsMem e.endByte rest x

/-- The excluded ranges walked from `precEnd` are ascending: each starts
at or after the walk point and is a real range. -/
def ExclsChain (precEnd : Nat) : List TSRange → Prop
  | [] => True
  | e :: rest => precEnd ≤ e.startByte ∧ e.startByte ≤ e.endByte ∧ ExclsChain e.endByte rest

/-- A well-formed tree node: a real range within the 64-bit offset
space, whose direct children are real ranges contained in it and listed
in sorted, disjoint order. -/
def NodeWF (n : SNode) : Prop :=
  n.startByte ≤ n.endByte ∧ n.endByte ≤ UINTMAX ∧
    (∀ c ∈ n.children,
      n.startByte ≤ c.startByte ∧ c.startByte ≤ c.endByte ∧ c.endByte ≤ n.endByte) ∧
    List.Chain' RLe n.children

/-- Node `a` ends no later than node `b` starts (disjoint, sorted
nodes). -/
def RLeN (a b : SNode) : Prop := a.endByte ≤ b.startByte

/-- The byte set the spec assigns to one node: inside the node and, when
children are not included, outside its direct children. -/
def nodeMem (n : SNode) (incl : Bool) (x : Nat) : Prop :=
  n.startByte ≤ x ∧ x < n.endByte ∧ (incl = true ∨ ¬ MemR x n.children)

/-- The common postcondition of the `intersectRanges` inner while loop
on candidate `r` against `parent :: parents`, accumulating into
`result`: the result stays sorted below `r`'s end and gains exactly
`r ∩ ⋃(parent :: parents)`; on normal exit the remaining parents are a
suffix agreeing with the original list above `r`'s end, and on the
early return no parent range reaches `r`'s end. -/
def IRPost (r parent : TSRange) (parents result : List TSRange) :
    (TSRange × List TSRange × List TSRange) ⊕ List TSRange → Prop
  | .inl (parent', parents', result') =>
      SortedDisj result' ∧ Below result' r.endByte ∧
      (parent' :: parents') <:+ (parent :: parents) ∧
      (∀ x, r.endByte ≤ x → (MemR x (parent' :: parents') ↔ MemR x (parent :: parents))) ∧
      (∀ x, MemR x result' ↔ MemR x result ∨
        (r.startByte ≤ x ∧ x < r.endByte ∧ MemR x (parent :: parents)))
  | .inr result' =>
      SortedDisj result' ∧ Below result' r.endByte ∧
      (∀ x, r.endByte ≤ x → ¬ MemR x (parent :: parents)) ∧
      (∀ x, MemR x result' ↔ MemR x result ∨
        (r.startByte ≤ x ∧ x < r.endByte ∧ MemR x (parent :: parents)))

/-- Every excluded range starts at or before the bound `b`. -/
def ExclsLE (excls : List TSRange) (b : Nat) : Prop := ∀ e ∈ excls, e.startByte ≤ b

/-- Postcondition of the walk of one node's excluded-range list: the
result gains exactly the gap bytes that also lie in a parent range, and
the walk either keeps a parent suffix agreeing with the original list
above every bound dominating the excluded starts, or exhausts the
parents, in which case no parent range reaches such a bound. -/
def ELPost (precEnd : Nat) (excls : List TSRange) (parent : TSRange)
    (parents result : List TSRange) :
    (TSRange × List TSRange × List TSRange) ⊕ List TSRange → Prop
  | .inl (parent', parents', result') =>
      SortedDisj result' ∧
      (∀ b, Below result b → ExclsLE excls b → Below result' b) ∧
      (parent' :: parents') <:+ (parent :: parents) ∧
      (∀ b, ExclsLE excls b → ∀ x, b ≤ x →
        (MemR x (parent' :: parents') ↔ MemR x (parent :: parents))) ∧
      (∀ x, MemR x result' ↔ MemR x result ∨
        (gapsMem precEnd excls x ∧ MemR x (parent :: parents)))
  | .inr result' =>
      SortedDisj result' ∧
      (∀ b, Below result b → ExclsLE excls b → Below result' b) ∧
      (∀ b, ExclsLE excls b → ∀ x, b ≤ x → ¬ MemR x (parent :: parents)) ∧
      (∀ x, MemR x result' ↔ MemR x result ∨
        (gapsMem precEnd excls x ∧ MemR x (parent :: parents)))

/-- Postcondition of processing one node: the result gains exactly the
bytes the spec assigns to the node that also lie in a parent range, and
the parent ranges are either thinned to a suffix agreeing above the
node's end or exhausted below it. -/
def NPost (n : SNode) (incl : Bool) (parent : TSRange)
    (parents result : List TSRange) :
    (TSRange × List TSRange × List TSRange) ⊕ List TSRange → Prop
  | .inl (parent', parents', result') =>
      SortedDisj result' ∧
      (∀ b, Below result b → n.endByte ≤ b → Below result' b) ∧
      (parent' :: parents') <:+ (parent :: parents) ∧
      (∀ x, n.endByte ≤ x → (MemR x (parent' :: parents') ↔ MemR x (parent :: parents))) ∧
      (∀ x, MemR x result' ↔ MemR x result ∨
        (nodeMem n incl x ∧ MemR x (parent :: parents)))
  | .inr result' =>
      SortedDisj result' ∧
      (∀ b, Below result b → n.endByte ≤ b → Below result' b) ∧
      (∀ x, n.endByte ≤ x → ¬ MemR x (parent :: parents)) ∧
      (∀ x, MemR x result' ↔ MemR x result ∨
        (nodeMem n incl x ∧ MemR x (parent :: parents)))

/-- Membership in the byte set the spec assigns to a list of nodes. -/
def nodesMem (nodes : List SNode) (incl : Bool) (x : Nat) : Prop :=
  ∃ n ∈ nodes, nodeMem n incl x

/-! ## Specification-side predicates for the source-coverage invariant -/

/-- The byte ranges carried by the `Source` events of a stream, in
emission order. -/
def sourceRanges (evs : List HEvent) : List (Nat × Nat) :=
  evs.filterMap fun e => match e with
    | HEvent.source a b => some (a, b)
    | _ => none

/-- A layer whose capture ranges and pending highlight ends stay within
the source. -/
def LayerWF (len : Nat) (l : IterLayer) : Prop :=
  (∀ it ∈ l.captures, it.capture.nodeStart ≤ len ∧ it.capture.nodeEnd ≤ len) ∧
  (∀ e ∈ l.highlightEndStack, e ≤ len)

/-- The iterator-state invariant: the byte offset stays within the
source, queued events are never `Source` events (and a queued nil event
only exists once the offset has reached the end), and every layer is
well-formed. -/
def StateWF (st : IterState) : Prop :=
  st.byteOffset ≤ st.source.length ∧
  (∀ ev ∈ st.nextEvents, (∀ a b, ev ≠ some (HEvent.source a b)) ∧
    (ev = none → st.byteOffset = st.source.length)) ∧
  (∀ l ∈ st.layers, LayerWF st.source.length l)

/-- An injection oracle that only produces well-formed layers. -/
def OracleWF (inject : InjectOracle) (len : Nat) : Prop :=
  ∀ st l it, ∀ nl ∈ inject st l it, LayerWF len nl

/-- What one iteration of the iterator loop does to the byte offset: a
`Source` event spans exactly from the old offset to the new one, any
other event leaves the offset unchanged, the nil event is only yielded
once the offset has reached the end of the source, and the state stays
well-formed over the same source. -/
def StepSpec (st : IterState) : StepResult → Prop
  | .yield e st' =>
      st'.source = st.source ∧
      (match e with
       | some (HEvent.source a b) =>
           a = st.byteOffset ∧ b = st'.byteOffset ∧ st.byteOffset < b ∧ StateWF st'
       | none => st.byteOffset = st.source.length
       | some _ => st'.byteOffset = st.byteOffset ∧ StateWF st')
  | .again st' =>
      st'.source = st.source ∧ st'.byteOffset = st.byteOffset ∧ StateWF st'

/-- The ranges tile `[o, fin)`: consecutive, non-empty, gap-free from
`o` to `fin`. -/
def Tiles : Nat → Nat → List (Nat × Nat) → Prop
  | o, fin, [] => o = fin
  | o, fin, (a, b) :: rest => a = o ∧ o < b ∧ Tiles b fin rest

/-- The layer-bracket weight of an event: `+1` for `LayerStart`, `-1`
for `LayerEnd`, `0` for every other event. -/
def evLayerBal : HEvent → Int
  | HEvent.layerStart _ => 1
  | HEvent.layerEnd => -1
  | _ => 0

/-- The layer-bracket weight of an optional event. -/
def optLayerBal : Option HEvent → Int
  | some e => evLayerBal e
  | none => 0

/-- The pending layer-bracket weight of the queued events of a state. -/
def qBal (st : IterState) : Int := (st.nextEvents.map optLayerBal).sum

/-- `1` once a layer has become active (`lastLayer` set), else `0`. -/
def chiBal (st : IterState) : Int := if st.lastLayer = none then 0 else 1

/-- The queue invariant of the layer-bracket accounting: the nil event
is only ever queued alone, and a `LayerStart` is queued only once a
layer is active. -/
def QBalInv (st : IterState) : Prop :=
  (none ∈ st.nextEvents → st.nextEvents = [none]) ∧
  (∀ nm, some (HEvent.layerStart nm) ∈ st.nextEvents → st.lastLayer ≠ none)

/-- The number of `LayerStart` events of a stream. -/
def lsCount : List HEvent → Nat
  | [] => 0
  | HEvent.layerStart _ :: rest => lsCount rest + 1
  | _ :: rest => lsCount rest

/-- The number of `LayerEnd` events of a stream. -/
def leCount : List HEvent → Nat
  | [] => 0
  | HEvent.layerEnd :: rest => leCount rest + 1
  | _ :: rest => leCount rest

/-- Per-step layer-bracket accounting: one iteration preserves the sum
of the emitted weight, the queued weight and the active-layer flag; the
nil event is only yielded with an empty queue balance, the flag never
resets, and yielding a `LayerStart` means a layer is active. -/
def LBal (st : IterState) : StepResult → Prop
  | .yield e st' =>
      QBalInv st' ∧
      optLayerBal e + qBal st' + chiBal st = qBal st + chiBal st' ∧
      (e = none → qBal st = 0 ∧ qBal st' = 0) ∧
      chiBal st ≤ chiBal st' ∧
      (∀ nm, e = some (HEvent.layerStart nm) → chiBal st' = 1)
  | .again st' => QBalInv st' ∧ qBal st' = qBal st ∧ chiBal st' = chiBal st

/-! ## Theorems -/

/-- Claim C10: the claim states that `non_local_variable_patterns` has one
entry per pattern, true iff the pattern carries a negative `local`
predicate, so that indexing by a pattern index is always in bounds.  The
code appends an entry only for the patterns that carry the predicate: on
a two-pattern query where only the second pattern has the predicate, the
built list is `[true]` of length 1 (the spec-prescribed list is
`[false, true]`), so indexing it with pattern index 1 during the
overshadow pass is out of bounds. -/
theorem C10_nonLocalVariablePatterns_wrong_length :
    buildNonLocalVariablePatterns exPredicates = [true] ∧
    (buildNonLocalVariablePatterns exPredicates).length = 1 ∧
    exPredicates.length = 2 ∧
    specNonLocalVariablePatterns exPredicates = [false, true] := by
  refine ⟨by decide, by decide, by decide, by decide⟩

/-- Claim C9: the claim states that a `local.definition` capture appends
a `LocalDef` to the scope at the top of the layer's scope stack so that a
later `local.reference` can find it.  In the code the top scope is a
struct copy (`scope := layer.ScopeStack[len-1]`) and the definition is
appended to the copy only: processing the definition capture consumes it
but leaves the scope stack unchanged (no `LocalDef` stored), so no later
reference can ever find a definition. -/
theorem C9_localDef_not_stored :
    stepOnce exNoInject exStLoc = .again exStLocAfter ∧
    exStLocAfter.layers.map (fun l => l.scopeStack) = [[rootLocalScope]] ∧
    rootLocalScope.localDefs = [] ∧
    exStLocAfter.layers.map (fun l => l.captures) = [[exRefItem]] := by
  refine ⟨by decide, by decide, rfl, by decide⟩

/-- Claim C5: the claim states that `sort_layers` moves `layers[0]`
forward past exactly the layers whose key is strictly smaller and
`insert_layer` inserts before the first layer whose key is strictly
greater, leaving a minimal-key layer in front.  The code compares the
other way around: with layers keyed `(1,start)`, `(2,start)`, `(3,start)`
(already sorted, the front minimal), `sortLayers` moves the front past
the strictly greater keys, producing front key `(2,start)` with the
minimal key `(1,start)` last; and `insertLayer` of a key-`(0,start)`
layer into keys `(1,start)`, `(2,start)` appends it at the back instead
of in front of the greater keys.  (The first clause of the claim, the
`compare` ordering itself, does hold: offset, then end-before-start,
then deeper-first.) -/
theorem C5_sortLayers_inverted :
    (sortLayers [exKeyLayer 0 1, exKeyLayer 1 2, exKeyLayer 2 3]).map (fun l => l.lid)
      = [1, 2, 0] ∧
    (exKeyLayer 0 1).sortKey = some ⟨1, true, 0⟩ ∧
    (exKeyLayer 1 2).sortKey = some ⟨2, true, 0⟩ ∧
    SortKey.compare ⟨1, true, 0⟩ ⟨2, true, 0⟩ = -1 ∧
    (insertLayer (exKeyLayer 3 0) [exKeyLayer 0 1, exKeyLayer 1 2]).map (fun l => l.lid)
      = [0, 1, 3] ∧
    (exKeyLayer 3 0).sortKey = some ⟨0, true, 0⟩ := by
  refine ⟨by decide, by decide, by decide, by decide, by decide, by decide⟩

/-- With a parse oracle whose main-query capture stream is empty and a
configuration without a combined-injections query, the `newIterLayers`
loop takes the empty-stream `continue` on every iteration — the dequeue
at the bottom of the loop is skipped — so it never returns, for any
fuel. -/
theorem newIterLayersLoop_empty_stream_diverges (s pn : List Char) (d : Nat)
    (rg : List TSRange) :
    ∀ (fuel : Nat) (res : List IterLayer),
      newIterLayersLoop exPoEmpty exNoCb s pn fuel exCfg d rg res [] = none := by
  intro fuel
  induction fuel with
  | zero => intro res; rfl
  | succ n ih =>
    intro res
    simpa [newIterLayersLoop, newIterLayersBody, exPoEmpty, exCfg] using ih res

/-- Claim C8: the claim states that `new_iter_layers` terminates on every
input because each loop iteration removes the dequeued item from the work
queue.  Neither part holds of the code: the dequeue
`next, queue = queue[0], append(queue, queue[1:]...)` keeps the head and
appends a copy of the tail (a two-item queue becomes a three-item queue),
and the empty-capture-stream `continue` jumps back to the top of the loop
without ever reaching the dequeue, so on a query with no captures the
loop re-processes the same item forever and `newIterLayers` never
returns (`none` for every fuel). -/
theorem C8_newIterLayers_nontermination :
    (∀ fuel : Nat,
      newIterLayersGo exPoEmpty exNoCb "ab".toList [] exCfg 0 [wholeSourceRange] fuel = none) ∧
    goDequeue [exQ1, exQ2] = some (exQ1, [exQ1, exQ2, exQ2]) ∧
    goDequeue [exQ1] = some (exQ1, [exQ1]) := by
  refine ⟨fun fuel => newIterLayersLoop_empty_stream_diverges _ _ _ _ fuel [], rfl, rfl⟩

/-- Claim C2 counterexample: a one-capture highlight run through the
composed pipeline produces
`LayerStart • CaptureStart • Source • CaptureEnd` and then finishes —
the stream contains a `LayerStart` but no `LayerEnd` at all, so the
Layer brackets are not balanced; and for the two-byte source whose query
matches nothing, `newIterLayers` does not return within any of the
checked fuels (the stream claimed as
`LayerStart • Source(0,2) • LayerEnd` is never produced). -/
theorem C2_counterexample :
    highlightPipeline exPoS1 exNoCb exNoInject exCfg "x".toList 5 20
      = some (exS1Events, true) ∧
    HEvent.layerEnd ∉ exS1Events ∧
    (HEvent.layerStart "L".toList) ∈ exS1Events ∧
    newIterLayersGo exPoEmpty exNoCb "ab".toList [] exCfg 0 [wholeSourceRange] 60 = none := by
  refine ⟨by decide, by decide, by decide, by decide⟩

/-- Every group produced by the combined-injection grouping loop has an
empty language name: the only write of the `languageName` field is
guarded by `languageName == ""` and writes that (empty) resolved name,
so a non-empty resolved name is never stored. -/
theorem groupCombined_languageName_empty (cfg : HConfig) (pn src : List Char)
    (pc : Nat) (cs : List (List PropSetting)) (ms : List StreamMatch) :
    ∀ g ∈ groupCombined cfg pn src pc cs ms, g.languageName = [] := by
  unfold groupCombined
  have base : ∀ g ∈ List.replicate pc (⟨[], [], false⟩ : CombinedInjection),
      g.languageName = [] := by
    intro g hg
    rw [List.eq_of_mem_replicate hg]
  revert base
  generalize List.replicate pc _ = gs
  induction ms generalizing gs with
  | nil => intro base; simpa using base
  | cons m rest ih =>
    intro base
    rw [List.foldl_cons]
    apply ih
    intro g hg
    have hg0 : (gs.getD m.patternIndex (⟨[], [], false⟩ : CombinedInjection)).languageName
        = [] := by
      rcases hx : gs[m.patternIndex]? with _ | g0
      · simp [List.getD_eq_getElem?_getD, hx]
      · have hm : g0 ∈ gs := List.getElem?_mem hx
        simp [List.getD_eq_getElem?_getD, hx, base g0 hm]
    rcases List.mem_or_eq_of_mem_set hg with h | h
    · exact base g h
    · subst h
      dsimp only
      split
      · split <;> simp_all
      · split <;> simp_all

/-- Claim C7: the claim states that in the combined-injection pass the
resolved language name is assigned to the grouped record when it is
non-empty, so that such an injection reaches the callback and enqueues a
child item.  The code's guard is `if languageName == ""` — it assigns
only when the resolved name is empty (and then assigns the empty name) —
so every group keeps an empty language name, the callback is never
invoked and nothing is ever enqueued, for every input; at the concrete
match whose `injection.language` capture resolves to `"css"` with one
content node, the group still carries the empty name and the enqueue
pass produces nothing. -/
theorem C7_combined_language_guard_inverted :
    (∀ (cfg : HConfig) (pn src : List Char) (pc : Nat) (cs : List (List PropSetting))
        (ms : List StreamMatch) (cb : List Char → Option HConfig) (pr : List TSRange)
        (d : Nat),
      combinedEnqueue cb pr d (groupCombined cfg pn src pc cs ms) = ([], [])) ∧
    (injectionForMatch exCfgComb [] [[]] exCombMatch exCombSource).1 = "css".toList ∧
    (injectionForMatch exCfgComb [] [[]] exCombMatch exCombSource).2.1 = some exCombContent ∧
    groupCombined exCfgComb [] exCombSource 1 [[]] [exCombMatch]
      = [⟨[], [exCombContent], false⟩] ∧
    combinedEnqueue (fun _ => some exCfg) [wholeSourceRange] 0
      (groupCombined exCfgComb [] exCombSource 1 [[]] [exCombMatch]) = ([], []) := by
  refine ⟨?_, by decide, by decide, by decide, by decide⟩
  intro cfg pn src pc cs ms cb pr d
  have hempty := groupCombined_languageName_empty cfg pn src pc cs ms
  unfold combinedEnqueue
  generalize hgs : groupCombined cfg pn src pc cs ms = gs at hempty
  clear hgs
  induction gs with
  | nil => rfl
  | cons g rest ih =>
    rw [List.foldl_cons]
    have hg : g.languageName = [] := hempty g (by simp)
    simp only [hg, ne_eq, not_true_eq_false, false_and, if_false]
    exact ih (fun g hgm => hempty g (by simp [hgm]))

/-- Claim C4 counterexample: the front layer (depth 2) peeks a highlight
capture over exactly the recorded `last_highlight_range` `(0,1)` of
depth 1 — the claim says this deeper duplicate is suppressed — yet the
step emits a `CaptureStart` for it: the code's guard is
`layer.Depth < lastRange.depth`, the opposite comparison. -/
theorem C4_counterexample :
    exLayerC4deep.depth = 2 ∧
    exStC4deep.lastHighlightRange = some (0, 1, 1) ∧
    exItem1.capture.nodeStart = 0 ∧
    exItem1.capture.nodeEnd = 1 ∧
    stepEvent (stepOnce exNoInject exStC4deep) = some (some (HEvent.captureStart 0)) := by
  refine ⟨rfl, rfl, by decide, by decide, by decide⟩

/-- Claim C4 (amended): when the front layer's next capture is a
highlight pattern whose node range equals the recorded
`last_highlight_range` `(s,e,d)` and the front layer's depth is strictly
LESS than `d`, the highlight is suppressed: the capture is consumed, no
event is produced (`continue main`), and the iterator state is unchanged
except for the consumed capture, the lazily popped scopes and the layer
re-sort.  (Duplicates from depths ≥ `d` are not suppressed, so a single
`CaptureStart` for a range shared by two nested layers results only when
the deeper layer's highlight is processed first.) -/
theorem C4_amended_suppression (inject : InjectOracle)
    (source languageName : List Char) (byteOffset lid : Nat) (item : StreamItem)
    (itemsRest : List StreamItem) (cfg : HConfig) (scopes : List LocalScope)
    (ranges : List TSRange) (depth : Nat) (rest : List IterLayer) (s e d : Nat)
    (hloc : cfg.localsPatternIndex ≤ item.m.patternIndex)
    (hhi : cfg.highlightsPatternIndex ≤ item.m.patternIndex)
    (hs : item.capture.nodeStart = s) (he : item.capture.nodeEnd = e)
    (hd : depth < d) :
    stepOnce inject
      { source := source, languageName := languageName, byteOffset := byteOffset,
        layers := { lid := lid, captures := item :: itemsRest, config := cfg,
                    highlightEndStack := [], scopeStack := scopes, ranges := ranges,
                    depth := depth } :: rest,
        nextEvents := [], lastHighlightRange := some (s, e, d), lastLayer := some lid }
      = .again
      { source := source, languageName := languageName, byteOffset := byteOffset,
        layers := sortLayers
          ({ lid := lid, captures := itemsRest, config := cfg,
             highlightEndStack := [], scopeStack := popEndedScopes s scopes,
             ranges := ranges, depth := depth } :: rest),
        nextEvents := [], lastHighlightRange := some (s, e, d), lastLayer := some lid } := by
  subst hs he
  unfold stepOnce
  dsimp only
  rw [if_neg (by simp : ¬ ((some lid : Option Nat) ≠ some lid))]
  unfold stepConsume
  dsimp only
  rw [if_neg (Nat.not_lt.mpr hloc)]
  unfold localsLoop
  rw [if_neg (Nat.not_lt.mpr hhi)]
  unfold highlightStep
  dsimp only
  rw [if_pos (by simp [hd])]
  rfl

/-- Witness for the amended C4 theorem: at the concrete shallow-layer
state (depth 0, recorded range `(0,1)` at depth 1, next capture `[0,1)`)
all hypotheses hold and the step suppresses the highlight. -/
theorem C4_amended_suppression_witness :
    exCfg.localsPatternIndex ≤ exItem1.m.patternIndex ∧
    exCfg.highlightsPatternIndex ≤ exItem1.m.patternIndex ∧
    (0 : Nat) < 1 ∧
    stepOnce exNoInject exStC4shallow = .again
      { source := "x".toList, languageName := "L".toList, byteOffset := 0,
        layers := sortLayers
          ({ lid := 13, captures := [], config := exCfg, highlightEndStack := [],
             scopeStack := popEndedScopes 0 [rootLocalScope],
             ranges := [wholeSourceRange], depth := 0 } :: []),
        nextEvents := [], lastHighlightRange := some (0, 1, 1), lastLayer := some 13 } :=
  ⟨by decide, by decide, by decide,
    C4_amended_suppression exNoInject "x".toList "L".toList 0 13 exItem1 [] exCfg
      [rootLocalScope] [wholeSourceRange] 0 [] 0 1 1 (by decide) (by decide) (by decide)
      (by decide) (by decide)⟩

/-- A name without a dot has no last-dot index. -/
theorem goLastDotIndex_eq_none {s : List Char} (h : '.' ∉ s) : goLastDotIndex s = none := by
  unfold goLastDotIndex
  have hf : s.reverse.findIdx? (fun c => decide (c = '.')) = none := by
    rw [List.findIdx?_eq_none_iff]
    intro c hc
    rw [List.mem_reverse] at hc
    simp only [decide_eq_false_iff_not]
    intro hcd
    exact h (hcd ▸ hc)
  rw [hf]

/-- A name whose last-dot index is undefined has no dot. -/
theorem no_dot_of_goLastDotIndex_eq_none {s : List Char} (h : goLastDotIndex s = none) :
    '.' ∉ s := by
  intro hmem
  unfold goLastDotIndex at h
  rcases hf : s.reverse.findIdx? (fun c => decide (c = '.')) with _ | i
  · rw [List.findIdx?_eq_none_iff] at hf
    have := hf '.' (List.mem_reverse.mpr hmem)
    simp at this
  · rw [hf] at h
    cases h

/-- When `strings.LastIndex(s, ".")` returns `d`, position `d` holds the
last dot of `s`: `s[d] = '.'` and no later position holds a dot. -/
theorem goLastDotIndex_spec {s : List Char} {d : Nat} (h : goLastDotIndex s = some d) :
    d < s.length ∧ s.getD d ' ' = '.' ∧
      ∀ j, d < j → j < s.length → s.getD j ' ' ≠ '.' := by
  unfold goLastDotIndex at h
  rcases hf : s.reverse.findIdx? (fun c => decide (c = '.')) with _ | i
  · rw [hf] at h; cases h
  · rw [hf] at h
    injection h with h
    obtain ⟨hil, hidx⟩ := List.findIdx?_eq_some_iff_findIdx_eq.mp hf
    have hlen : i < s.length := by simpa using hil
    have hlen2 : i < s.reverse.length := by simpa using hlen
    have hd : d < s.length := by omega
    have hp : decide (s.reverse[i] = '.') = true := by
      have := @List.findIdx_getElem _ (fun c => decide (c = '.')) s.reverse
        (by simpa [hidx] using hlen)
      simpa [hidx] using this
    have hrev : s.reverse[i] = s[s.length - 1 - i] :=
      List.getElem_reverse _
    have hdot : s.getD d ' ' = '.' := by
      rw [List.getD_eq_getElem s ' ' hd]
      have hx : s[s.length - 1 - i] = '.' := by
        rw [← hrev]
        exact of_decide_eq_true hp
      have hde : d = s.length - 1 - i := by omega
      simp only [hde]
      exact hx
    refine ⟨hd, hdot, ?_⟩
    intro j hdj hjl hdot'
    have hb1 : s.length - 1 - j < s.reverse.length := by simp; omega
    have hi' : s.length - 1 - j < List.findIdx (fun c => decide (c = '.')) s.reverse := by
      rw [hidx]; omega
    have hfalse := List.not_of_lt_findIdx hi'
    have hrev' : s.reverse[s.length - 1 - j]
        = s[s.length - 1 - (s.length - 1 - j)] := List.getElem_reverse _
    have hj : s.length - 1 - (s.length - 1 - j) = j := by omega
    rw [List.getD_eq_getElem s ' ' hjl] at hdot'
    rw [hrev'] at hfalse
    simp only [hj] at hfalse
    rw [hdot'] at hfalse
    simp at hfalse

/-- The stem list re-expressed with the membership bound of the range
resolved away. -/
theorem dotStems_eq (name : List Char) :
    dotStems name = ((List.range (name.length + 1)).reverse).filterMap fun k =>
      if k = name.length ∨ name.getD k ' ' = '.' then some (name.take k) else none := by
  unfold dotStems
  apply List.filterMap_congr
  intro k hk
  have hk' : k ≤ name.length := by
    rw [List.mem_reverse, List.mem_range] at hk; omega
  have hlen : (name.take k).length = k := by simp [hk']
  by_cases hc : k = name.length ∨ name.getD k ' ' = '.'
  · rw [if_pos hc]
    have hb : isDotStem (name.take k) name = true := by
      unfold isDotStem
      rw [hlen]
      rcases hc with hc | hc <;> simp [← List.getD_eq_getElem?_getD, hc]
    rw [hb]
    simp
  · rw [if_neg hc]
    push_neg at hc
    have hb : isDotStem (name.take k) name = false := by
      unfold isDotStem
      rw [hlen]
      simp [← List.getD_eq_getElem?_getD, hc.1, hc.2]
    rw [hb]
    simp

/-- A dot-free name has exactly one stem: the whole name. -/
theorem dotStems_no_dot {name : List Char} (h : '.' ∉ name) : dotStems name = [name] := by
  rw [dotStems_eq]
  have : List.range (name.length + 1) = List.range name.length ++ [name.length] :=
    List.range_succ name.length
  rw [this, List.reverse_append]
  simp only [List.reverse_cons, List.reverse_nil, List.nil_append, List.singleton_append,
    List.filterMap_cons]
  rw [if_pos (Or.inl trivial)]
  dsimp only
  rw [List.take_length]
  have hnil : ((List.range name.length).reverse).filterMap (fun k =>
      if k = name.length ∨ name.getD k ' ' = '.' then some (name.take k) else none) = [] := by
    rw [List.filterMap_eq_nil_iff]
    intro k hk
    rw [List.mem_reverse, List.mem_range] at hk
    have h1 : k ≠ name.length := by omega
    have h2 : name.getD k ' ' ≠ '.' := by
      rw [List.getD_eq_getElem name ' ' hk]
      intro hdot
      exact h (hdot ▸ List.getElem_mem hk)
    rw [if_neg (by simp [← List.getD_eq_getElem?_getD, h1, h2])]
  rw [hnil]

/-- When the name has a last dot at `d`, its stems are the whole name
followed by the stems of the name truncated at that dot. -/
theorem dotStems_dot {name : List Char} {d : Nat} (h : goLastDotIndex name = some d) :
    dotStems name = name :: dotStems (name.take d) := by
  obtain ⟨hdl, hdot, hlast⟩ := goLastDotIndex_spec h
  have htl : (name.take d).length = d := by simp; omega
  rw [dotStems_eq, dotStems_eq, htl]
  have hr1 : List.range (name.length + 1) = List.range name.length ++ [name.length] :=
    List.range_succ name.length
  rw [hr1, List.reverse_append]
  simp only [List.reverse_cons, List.reverse_nil, List.nil_append, List.singleton_append,
    List.filterMap_cons]
  rw [if_pos (Or.inl trivial)]
  dsimp only
  rw [List.take_length]
  have hsplit : List.range name.length
      = List.range (d + 1) ++ (List.range (name.length - (d + 1))).map (fun x => (d + 1) + x) := by
    rw [← List.range_add]
    congr 1
    omega
  rw [hsplit, List.reverse_append, List.filterMap_append]
  have hnil : (((List.range (name.length - (d + 1))).map (fun x => (d + 1) + x)).reverse).filterMap
      (fun k => if k = name.length ∨ name.getD k ' ' = '.' then some (name.take k) else none)
      = [] := by
    rw [List.filterMap_eq_nil_iff]
    intro k hk
    rw [List.mem_reverse, List.mem_map] at hk
    obtain ⟨x, hx, hkx⟩ := hk
    rw [List.mem_range] at hx
    have h1 : k ≠ name.length := by omega
    have h2 : name.getD k ' ' ≠ '.' := hlast k (by omega) (by omega)
    rw [if_neg (by simp [← List.getD_eq_getElem?_getD, h1, h2])]
  rw [hnil, List.nil_append]
  congr 1
  apply List.filterMap_congr
  intro k hk
  rw [List.mem_reverse, List.mem_range] at hk
  have hkd : k ≤ d := by omega
  have htake : (name.take d).take k = name.take k := by
    rw [List.take_take]
    congr 1
    omega
  rcases Nat.lt_or_ge k d with hlt | hge
  · have hget : (name.take d).getD k ' ' = name.getD k ' ' := by
      rw [List.getD_eq_getElem _ ' ' (by omega : k < (name.take d).length),
        List.getD_eq_getElem name ' ' (by omega), List.getElem_take]
    have h1 : k ≠ name.length := by omega
    have h2 : k ≠ d := by omega
    by_cases hc : name.getD k ' ' = '.'
    · rw [if_pos (Or.inr hc), if_pos (Or.inr (hget.trans hc)), htake]
    · rw [if_neg (by simp [← List.getD_eq_getElem?_getD, h1, hc]),
        if_neg (by simp [← List.getD_eq_getElem?_getD, h2, hget, hc])]
  · have hkd' : k = d := by omega
    subst hkd'
    rw [if_pos (Or.inr hdot), if_pos (Or.inl rfl), htake]

/-- The `Configure` per-name loop computes the first dot-separated stem
(longest first) found among the recognised names, given enough fuel
(one unit per stem, bounded by the name's length). -/
theorem configureNameLoop_eq_spec :
    ∀ (n : Nat) (recognized : List (List Char)) (name : List Char), name.length ≤ n →
      ∀ fuel, name.length < fuel →
      configureNameLoop recognized fuel name = specCaptureIndex recognized name := by
  intro n
  induction n with
  | zero =>
    intro recognized name hle fuel hf
    have hnil : name = [] := List.length_eq_zero.mp (Nat.le_zero.mp hle)
    subst hnil
    cases fuel with
    | zero => omega
    | succ f =>
      unfold configureNameLoop specCaptureIndex
      rw [dotStems_no_dot (by simp), List.findSome?_cons]
      have hdotnil : goLastDotIndex [] = none := rfl
      rcases hfi : List.findIdx? (fun c => decide (c = ([] : List Char))) recognized with _ | j
        <;> simp [hfi, hdotnil]
  | succ n ih =>
    intro recognized name hle fuel hf
    cases fuel with
    | zero => omega
    | succ f =>
      unfold configureNameLoop
      rcases hdot : goLastDotIndex name with _ | d
      · have hnd := no_dot_of_goLastDotIndex_eq_none hdot
        unfold specCaptureIndex
        rw [dotStems_no_dot hnd, List.findSome?_cons]
        rcases hfi : List.findIdx? (fun c => decide (c = name)) recognized with _ | j
          <;> simp [hfi]
      · have hspec := goLastDotIndex_spec hdot
        unfold specCaptureIndex
        rw [dotStems_dot hdot, List.findSome?_cons]
        rcases hfi : List.findIdx? (fun c => decide (c = name)) recognized with _ | j
        · simp only [hfi]
          have htl : (name.take d).length = d := by simp; omega
          rw [ih recognized (name.take d) (by omega) f (by omega)]
          rfl
        · simp [hfi]

/-- `configureCaptureName` agrees with the longest-stem specification. -/
theorem configureCaptureName_eq_spec (recognized : List (List Char)) (name : List Char) :
    configureCaptureName recognized name = specCaptureIndex recognized name :=
  configureNameLoop_eq_spec name.length recognized name le_rfl _ (Nat.lt_succ_self _)

/-- Claim C6: `Configure(recognized_names)` assigns to each capture name
the index of the first of its dot-separated stems, tried from the
longest (the whole name) to the shortest, that occurs in
`recognized_names`, and no highlight when no stem occurs.  Concretely:
with recognised `["function"]`, the capture name
`function.method.builtin` maps to index 0; with
`["function.method"]`, `function.builtin` maps to no highlight; and
with both present the longer stem wins, whichever order the recognised
names are listed in. -/
theorem C6_configure_prefix_walk :
    (∀ (recognized captureNames : List (List Char)),
      configure recognized captureNames = captureNames.map (specCaptureIndex recognized)) ∧
    configureCaptureName ["function".toList] "function.method.builtin".toList = some 0 ∧
    configureCaptureName ["function.method".toList] "function.builtin".toList = none ∧
    configureCaptureName ["function".toList, "function.method".toList]
      "function.method.builtin".toList = some 1 ∧
    configureCaptureName ["function.method".toList, "function".toList]
      "function.method.builtin".toList = some 0 := by
  refine ⟨?_, by decide, by decide, by decide, by decide⟩
  intro recognized captureNames
  unfold configure
  exact List.map_congr_left fun name _ => configureCaptureName_eq_spec recognized name

/-- No byte lies in the empty union. -/
theorem memR_nil (x : Nat) : ¬ MemR x [] := by simp [MemR]

/-- Membership in a union with a first range. -/
theorem memR_cons {x : Nat} {p : TSRange} {ps : List TSRange} :
    MemR x (p :: ps) ↔ (p.startByte ≤ x ∧ x < p.endByte) ∨ MemR x ps := by
  simp [MemR]

/-- Membership in a concatenated union. -/
theorem memR_append {x : Nat} {l1 l2 : List TSRange} :
    MemR x (l1 ++ l2) ↔ MemR x l1 ∨ MemR x l2 := by
  simp [MemR, List.mem_append, or_and_right, exists_or]

/-- Membership in a one-range union. -/
theorem memR_single {x : Nat} {q : TSRange} :
    MemR x [q] ↔ q.startByte ≤ x ∧ x < q.endByte := by
  simp [MemR]

/-- `Below` is monotone in the bound. -/
theorem below_mono {rs : List TSRange} {a b : Nat} (h : Below rs a) (hab : a ≤ b) :
    Below rs b := fun q hq => Nat.le_trans (h q hq) hab

/-- Appending a fresh non-empty range past a sorted-disjoint list keeps
it sorted and disjoint. -/
theorem sortedDisj_append {rs : List TSRange} {s e : Nat} (h : SortedDisj rs)
    (hb : Below rs s) (hse : s < e) : SortedDisj (rs ++ [⟨s, e⟩]) := by
  obtain ⟨hchain, hne⟩ := h
  constructor
  · rw [List.chain'_append]
    refine ⟨hchain, List.chain'_singleton _, ?_⟩
    intro q hq r hr
    have hq' : q ∈ rs := List.mem_of_mem_getLast? hq
    have hr' : ({ startByte := s, endByte := e } : TSRange) = r := by simpa using hr
    subst hr'
    exact hb q hq'
  · intro q hq
    rcases List.mem_append.mp hq with h | h
    · exact hne q h
    · have : q = ⟨s, e⟩ := by simpa using h
      subst this
      exact hse

/-- In a sorted-disjoint list of real ranges, every later range starts
at or after the head's end. -/
theorem chainLower {p : TSRange} {ps : List TSRange} (hc : List.Chain' RLe (p :: ps))
    (hwf : ∀ q ∈ ps, q.startByte ≤ q.endByte) :
    ∀ q ∈ ps, p.endByte ≤ q.startByte := by
  induction ps generalizing p with
  | nil => intro q hq; cases hq
  | cons q qs ih =>
    intro q' hq'
    rw [List.chain'_cons] at hc
    rcases hq' with _ | hq'
    · exact hc.1
    · have hq : q.endByte ≤ q'.startByte :=
        ih hc.2 (fun a ha => hwf a (List.mem_cons_of_mem q ha)) q' (by assumption)
      have := hwf q (List.mem_cons_self q qs)
      exact Nat.le_trans hc.1 (Nat.le_trans this hq)


/-- A byte in a union whose ranges all start at or after a bound is at
or after that bound. -/
theorem memR_lb {x b : Nat} {rest : List TSRange}
    (h : ∀ q ∈ rest, b ≤ q.startByte) (hm : MemR x rest) : b ≤ x := by
  obtain ⟨q, hq, hq1, _⟩ := hm
  exact Nat.le_trans (h q hq) hq1

/-- Main invariant of the inner while loop of `intersectRanges`: the
loop adds exactly the tiles of the intersection of `r` with the union
of `parent :: parents` to the result, and on breaking leaves a suffix
of the parent ranges that agrees with the original list above the end
of `r`. -/
theorem irWhile_post :
    ∀ (parents : List TSRange) (r parent : TSRange) (result : List TSRange),
      List.Chain' RLe (parent :: parents) →
      (∀ p ∈ parent :: parents, p.startByte ≤ p.endByte) →
      r.startByte ≤ r.endByte →
      SortedDisj result → Below result r.startByte →
      IRPost r parent parents result (irWhile r parent parents result) := by
  intro parents
  induction parents with
  | nil =>
    intro r parent result hchain hwf hr hsd hb
    have hwfp : parent.startByte ≤ parent.endByte := hwf parent (by simp)
    unfold irWhile
    by_cases h1 : parent.startByte ≤ r.endByte
    · rw [if_pos h1]
      obtain ⟨s1, hs1r, hs1p, hs1eq, hs1if⟩ :
          ∃ s1, r.startByte ≤ s1 ∧ parent.startByte ≤ s1 ∧
            s1 = max r.startByte parent.startByte ∧
            (if r.startByte < parent.startByte then
              ({ r with startByte := parent.startByte } : TSRange) else r)
              = ⟨s1, r.endByte⟩ := by
        split
        · exact ⟨parent.startByte, by omega, le_rfl, by omega, rfl⟩
        · exact ⟨r.startByte, le_rfl, by omega, by omega, rfl⟩
      by_cases h2 : parent.endByte > r.startByte
      · rw [if_pos h2]
        dsimp only
        rw [hs1if]
        dsimp only
        by_cases h3 : parent.endByte < r.endByte
        · rw [if_pos h3]
          refine ⟨?_, ?_, ?_, ?_⟩
          · split
            · exact sortedDisj_append hsd (below_mono hb (by omega)) (by assumption)
            · exact hsd
          · intro q hq
            split at hq
            · rcases List.mem_append.mp hq with h | h
              · exact Nat.le_trans (hb q h) (by omega)
              · have hqe : q = ⟨s1, parent.endByte⟩ := by simpa using h
                subst hqe
                show parent.endByte ≤ r.endByte
                omega
            · exact Nat.le_trans (hb q hq) (by omega)
          · intro x hx hm
            rcases memR_cons.mp hm with ⟨hx1, hx2⟩ | hm'
            · omega
            · exact absurd hm' (memR_nil x)
          · intro x
            have hnil := memR_nil x
            split
            · rw [memR_append, memR_single]
              dsimp only
              constructor
              · rintro (hm | ⟨hx1, hx2⟩)
                · exact Or.inl hm
                · exact Or.inr ⟨by omega, by omega,
                    memR_cons.mpr (Or.inl ⟨by omega, by omega⟩)⟩
              · rintro (hm | ⟨hx1, hx2, hm'⟩)
                · exact Or.inl hm
                · rcases memR_cons.mp hm' with ⟨hx3, hx4⟩ | hm''
                  · exact Or.inr ⟨by omega, by omega⟩
                  · exact absurd hm'' hnil
            · constructor
              · exact Or.inl
              · rintro (hm | ⟨hx1, hx2, hm'⟩)
                · exact hm
                · rcases memR_cons.mp hm' with ⟨hx3, hx4⟩ | hm''
                  · omega
                  · exact absurd hm'' hnil
        · rw [if_neg h3]
          refine ⟨?_, ?_, List.suffix_refl _, fun x _ => Iff.rfl, ?_⟩
          · split
            · exact sortedDisj_append hsd (below_mono hb (by omega)) (by assumption)
            · exact hsd
          · intro q hq
            split at hq
            · rcases List.mem_append.mp hq with h | h
              · exact Nat.le_trans (hb q h) (by omega)
              · have hqe : q = ⟨s1, r.endByte⟩ := by simpa using h
                subst hqe
                show r.endByte ≤ r.endByte
                exact Nat.le_refl _
            · exact Nat.le_trans (hb q hq) (by omega)
          · intro x
            have hnil := memR_nil x
            split
            · rw [memR_append, memR_single]
              dsimp only
              constructor
              · rintro (hm | ⟨hx1, hx2⟩)
                · exact Or.inl hm
                · exact Or.inr ⟨by omega, by omega,
                    memR_cons.mpr (Or.inl ⟨by omega, by omega⟩)⟩
              · rintro (hm | ⟨hx1, hx2, hm'⟩)
                · exact Or.inl hm
                · rcases memR_cons.mp hm' with ⟨hx3, hx4⟩ | hm''
                  · exact Or.inr ⟨by omega, by omega⟩
                  · exact absurd hm'' hnil
            · constructor
              · exact Or.inl
              · rintro (hm | ⟨hx1, hx2, hm'⟩)
                · exact hm
                · rcases memR_cons.mp hm' with ⟨hx3, hx4⟩ | hm''
                  · omega
                  · exact absurd hm'' hnil
      · rw [if_neg h2]
        dsimp only
        refine ⟨hsd, below_mono hb hr, ?_, ?_⟩
        · intro x hx hm
          rcases memR_cons.mp hm with ⟨hx1, hx2⟩ | hm'
          · omega
          · exact absurd hm' (memR_nil x)
        · intro x
          constructor
          · exact Or.inl
          · rintro (hm | ⟨hx1, hx2, hm'⟩)
            · exact hm
            · rcases memR_cons.mp hm' with ⟨hx3, hx4⟩ | hm''
              · omega
              · exact absurd hm'' (memR_nil x)
    · rw [if_neg h1]
      refine ⟨hsd, below_mono hb hr, List.suffix_refl _, fun x _ => Iff.rfl, ?_⟩
      intro x
      constructor
      · exact Or.inl
      · rintro (hm | ⟨hx1, hx2, hm'⟩)
        · exact hm
        · rcases memR_cons.mp hm' with ⟨hx3, hx4⟩ | hm''
          · omega
          · exact absurd hm'' (memR_nil x)
  | cons p ps ih =>
    intro r parent result hchain hwf hr hsd hb
    have hwfp : parent.startByte ≤ parent.endByte := hwf parent (by simp)
    have hchain' : List.Chain' RLe (p :: ps) := (List.chain'_cons.mp hchain).2
    have hwf' : ∀ q ∈ p :: ps, q.startByte ≤ q.endByte :=
      fun q hq => hwf q (List.mem_cons_of_mem parent hq)
    have hlow : ∀ q ∈ p :: ps, parent.endByte ≤ q.startByte :=
      chainLower hchain hwf'
    have hlb : ∀ x, MemR x (p :: ps) → parent.endByte ≤ x := fun x => memR_lb hlow
    unfold irWhile
    by_cases h1 : parent.startByte ≤ r.endByte
    · rw [if_pos h1]
      obtain ⟨s1, hs1r, hs1p, hs1eq, hs1if⟩ :
          ∃ s1, r.startByte ≤ s1 ∧ parent.startByte ≤ s1 ∧
            s1 = max r.startByte parent.startByte ∧
            (if r.startByte < parent.startByte then
              ({ r with startByte := parent.startByte } : TSRange) else r)
              = ⟨s1, r.endByte⟩ := by
        split
        · exact ⟨parent.startByte, by omega, le_rfl, by omega, rfl⟩
        · exact ⟨r.startByte, le_rfl, by omega, by omega, rfl⟩
      by_cases h2 : parent.endByte > r.startByte
      · rw [if_pos h2]
        dsimp only
        rw [hs1if]
        dsimp only
        by_cases h3 : parent.endByte < r.endByte
        · rw [if_pos h3]
          have hpieceSD : SortedDisj (if s1 < parent.endByte then
              result ++ [⟨s1, parent.endByte⟩] else result) := by
            split
            · exact sortedDisj_append hsd (below_mono hb (by omega)) (by assumption)
            · exact hsd
          have hpieceBelow : Below (if s1 < parent.endByte then
              result ++ [⟨s1, parent.endByte⟩] else result) parent.endByte := by
            intro q hq
            split at hq
            · rcases List.mem_append.mp hq with h | h
              · exact Nat.le_trans (hb q h) (by omega)
              · have hqe : q = ⟨s1, parent.endByte⟩ := by simpa using h
                subst hqe
                exact Nat.le_refl _
            · exact Nat.le_trans (hb q hq) (by omega)
          have hpieceMem : ∀ x, MemR x (if s1 < parent.endByte then
              result ++ [⟨s1, parent.endByte⟩] else result)
              ↔ MemR x result ∨ (s1 ≤ x ∧ x < parent.endByte) := by
            intro x
            split
            · rw [memR_append, memR_single]
            · constructor
              · exact Or.inl
              · rintro (hm | ⟨hx1, hx2⟩)
                · exact hm
                · omega
          have hpost := ih ⟨parent.endByte, r.endByte⟩ p
            (if s1 < parent.endByte then result ++ [⟨s1, parent.endByte⟩] else result)
            hchain' hwf'
            (by show parent.endByte ≤ r.endByte; omega) hpieceSD hpieceBelow
          rcases hcall : irWhile ⟨parent.endByte, r.endByte⟩ p ps
              (if s1 < parent.endByte then result ++ [⟨s1, parent.endByte⟩] else result)
            with ⟨parent', parents', result'⟩ | result'
          · rw [hcall] at hpost
            rw [hcall]
            obtain ⟨ihsd, ihbelow, ihsuffix, ihagree, ihmem⟩ := hpost
            refine ⟨ihsd, ihbelow,
              ihsuffix.trans (List.suffix_cons parent (p :: ps)), ?_, ?_⟩
            · intro x hx
              rw [ihagree x hx]
              constructor
              · intro hm
                exact memR_cons.mpr (Or.inr hm)
              · intro hm
                rcases memR_cons.mp hm with ⟨hx1, hx2⟩ | hm'
                · omega
                · exact hm'
            · intro x
              rw [ihmem x, hpieceMem x]
              dsimp only
              constructor
              · rintro ((hm | ⟨hx1, hx2⟩) | ⟨hx1, hx2, hm⟩)
                · exact Or.inl hm
                · exact Or.inr ⟨by omega, by omega,
                    memR_cons.mpr (Or.inl ⟨by omega, by omega⟩)⟩
                · exact Or.inr ⟨by omega, by omega, memR_cons.mpr (Or.inr hm)⟩
              · rintro (hm | ⟨hx1, hx2, hm⟩)
                · exact Or.inl (Or.inl hm)
                · rcases memR_cons.mp hm with ⟨hx3, hx4⟩ | hm'
                  · exact Or.inl (Or.inr ⟨by omega, by omega⟩)
                  · have := hlb x hm'
                    exact Or.inr ⟨by omega, by omega, hm'⟩
          · rw [hcall] at hpost
            rw [hcall]
            obtain ⟨ihsd, ihbelow, ihnone, ihmem⟩ := hpost
            refine ⟨ihsd, ihbelow, ?_, ?_⟩
            · intro x hx hm
              rcases memR_cons.mp hm with ⟨hx1, hx2⟩ | hm'
              · omega
              · exact ihnone x hx hm'
            · intro x
              rw [ihmem x, hpieceMem x]
              dsimp only
              constructor
              · rintro ((hm | ⟨hx1, hx2⟩) | ⟨hx1, hx2, hm⟩)
                · exact Or.inl hm
                · exact Or.inr ⟨by omega, by omega,
                    memR_cons.mpr (Or.inl ⟨by omega, by omega⟩)⟩
                · exact Or.inr ⟨by omega, by omega, memR_cons.mpr (Or.inr hm)⟩
              · rintro (hm | ⟨hx1, hx2, hm⟩)
                · exact Or.inl (Or.inl hm)
                · rcases memR_cons.mp hm with ⟨hx3, hx4⟩ | hm'
                  · exact Or.inl (Or.inr ⟨by omega, by omega⟩)
                  · have := hlb x hm'
                    exact Or.inr ⟨by omega, by omega, hm'⟩
        · rw [if_neg h3]
          refine ⟨?_, ?_, List.suffix_refl _, fun x _ => Iff.rfl, ?_⟩
          · split
            · exact sortedDisj_append hsd (below_mono hb (by omega)) (by assumption)
            · exact hsd
          · intro q hq
            split at hq
            · rcases List.mem_append.mp hq with h | h
              · exact Nat.le_trans (hb q h) (by omega)
              · have hqe : q = ⟨s1, r.endByte⟩ := by simpa using h
                subst hqe
                exact Nat.le_refl _
            · exact Nat.le_trans (hb q hq) (by omega)
          · intro x
            split
            · rw [memR_append, memR_single]
              dsimp only
              constructor
              · rintro (hm | ⟨hx1, hx2⟩)
                · exact Or.inl hm
                · exact Or.inr ⟨by omega, by omega,
                    memR_cons.mpr (Or.inl ⟨by omega, by omega⟩)⟩
              · rintro (hm | ⟨hx1, hx2, hm'⟩)
                · exact Or.inl hm
                · rcases memR_cons.mp hm' with ⟨hx3, hx4⟩ | hm''
                  · exact Or.inr ⟨by omega, by omega⟩
                  · have := hlb x hm''
                    exact Or.inr ⟨by omega, by omega⟩
            · constructor
              · exact Or.inl
              · rintro (hm | ⟨hx1, hx2, hm'⟩)
                · exact hm
                · rcases memR_cons.mp hm' with ⟨hx3, hx4⟩ | hm''
                  · omega
                  · have := hlb x hm''
                    omega
      · rw [if_neg h2]
        dsimp only
        have hpost := ih r p result hchain' hwf' hr hsd hb
        rcases hcall : irWhile r p ps result with ⟨parent', parents', result'⟩ | result'
        · rw [hcall] at hpost
          obtain ⟨ihsd, ihbelow, ihsuffix, ihagree, ihmem⟩ := hpost
          refine ⟨ihsd, ihbelow,
            ihsuffix.trans (List.suffix_cons parent (p :: ps)), ?_, ?_⟩
          · intro x hx
            rw [ihagree x hx]
            constructor
            · intro hm
              exact memR_cons.mpr (Or.inr hm)
            · intro hm
              rcases memR_cons.mp hm with ⟨hx1, hx2⟩ | hm'
              · omega
              · exact hm'
          · intro x
            rw [ihmem x]
            constructor
            · rintro (hm | ⟨hx1, hx2, hm⟩)
              · exact Or.inl hm
              · exact Or.inr ⟨hx1, hx2, memR_cons.mpr (Or.inr hm)⟩
            · rintro (hm | ⟨hx1, hx2, hm⟩)
              · exact Or.inl hm
              · rcases memR_cons.mp hm with ⟨hx3, hx4⟩ | hm'
                · omega
                · exact Or.inr ⟨hx1, hx2, hm'⟩
        · rw [hcall] at hpost
          obtain ⟨ihsd, ihbelow, ihnone, ihmem⟩ := hpost
          refine ⟨ihsd, ihbelow, ?_, ?_⟩
          · intro x hx hm
            rcases memR_cons.mp hm with ⟨hx1, hx2⟩ | hm'
            · omega
            · exact ihnone x hx hm'
          · intro x
            rw [ihmem x]
            constructor
            · rintro (hm | ⟨hx1, hx2, hm⟩)
              · exact Or.inl hm
              · exact Or.inr ⟨hx1, hx2, memR_cons.mpr (Or.inr hm)⟩
            · rintro (hm | ⟨hx1, hx2, hm⟩)
              · exact Or.inl hm
              · rcases memR_cons.mp hm with ⟨hx3, hx4⟩ | hm'
                · omega
                · exact Or.inr ⟨hx1, hx2, hm'⟩
    · rw [if_neg h1]
      refine ⟨hsd, below_mono hb hr, List.suffix_refl _, fun x _ => Iff.rfl, ?_⟩
      intro x
      constructor
      · exact Or.inl
      · rintro (hm | ⟨hx1, hx2, hm'⟩)
        · exact hm
        · rcases memR_cons.mp hm' with ⟨hx3, hx4⟩ | hm''
          · omega
          · have := hlb x hm''
            omega

/-- Postcondition of one excluded-range step of `intersectRanges`: the
candidate gap `[precEnd, excl.start)` is intersected with the remaining
parent ranges (the guard for gaps entirely before the current parent
adds nothing, as such a gap meets no parent range). -/
theorem irExcluded_post (precEnd : Nat) (excl parent : TSRange)
    (parents result : List TSRange)
    (hchain : List.Chain' RLe (parent :: parents))
    (hwf : ∀ p ∈ parent :: parents, p.startByte ≤ p.endByte)
    (hr : precEnd ≤ excl.startByte)
    (hsd : SortedDisj result) (hb : Below result precEnd) :
    IRPost ⟨precEnd, excl.startByte⟩ parent parents result
      (irExcluded precEnd excl parent parents result) := by
  have hwfp : parent.startByte ≤ parent.endByte := hwf parent (by simp)
  have hlow2 : ∀ q ∈ parent :: parents, parent.startByte ≤ q.startByte := by
    intro q hq
    rcases List.mem_cons.mp hq with h | h
    · subst h
      exact Nat.le_refl _
    · exact Nat.le_trans hwfp (chainLower hchain
        (fun q' hq' => hwf q' (List.mem_cons_of_mem parent hq')) q h)
  unfold irExcluded
  dsimp only
  by_cases hg : excl.startByte < parent.startByte
  · rw [if_pos hg]
    refine ⟨hsd, below_mono hb hr, List.suffix_refl _, fun x _ => Iff.rfl, ?_⟩
    intro x
    constructor
    · exact Or.inl
    · rintro (hm | ⟨hx1, hx2, hm'⟩)
      · exact hm
      · have hx2' : x < excl.startByte := hx2
        have := memR_lb hlow2 hm'
        omega
  · rw [if_neg hg]
    exact irWhile_post parents ⟨precEnd, excl.startByte⟩ parent result hchain hwf hr hsd hb

/-- A byte inside some gap of an ascending excluded-range walk lies at
or after the walk's starting point. -/
theorem gapsMem_lb : ∀ (excls : List TSRange) (p x : Nat),
    ExclsChain p excls → gapsMem p excls x → p ≤ x := by
  intro excls
  induction excls with
  | nil =>
    intro p x _ hg
    simp only [gapsMem] at hg
  | cons e rest ih =>
    intro p x hE hg
    obtain ⟨h1, h2, hE'⟩ := hE
    simp only [gapsMem] at hg
    rcases hg with ⟨hga, _⟩ | hg'
    · exact hga
    · have := ih e.endByte x hE' hg'
      omega

/-- Postcondition of the excluded-range walk of `intersectRanges`: the
gaps between consecutive excluded ranges are intersected with the
remaining parent ranges and appended in order. -/
theorem irExcludedList_post :
    ∀ (excls : List TSRange) (precEnd : Nat) (parent : TSRange)
      (parents result : List TSRange),
      List.Chain' RLe (parent :: parents) →
      (∀ p ∈ parent :: parents, p.startByte ≤ p.endByte) →
      ExclsChain precEnd excls →
      SortedDisj result → Below result precEnd →
      ELPost precEnd excls parent parents result
        (irExcludedList precEnd excls parent parents result) := by
  intro excls
  induction excls with
  | nil =>
    intro precEnd parent parents result hchain hwf hE hsd hb
    unfold irExcludedList
    refine ⟨hsd, fun b hb' _ => hb', List.suffix_refl _, fun b _ x _ => Iff.rfl, ?_⟩
    intro x
    constructor
    · exact Or.inl
    · rintro (hm | ⟨hg, _⟩)
      · exact hm
      · simp only [gapsMem] at hg
  | cons e rest ih =>
    intro precEnd parent parents result hchain hwf hE hsd hb
    obtain ⟨hpe, hee, hE'⟩ := hE
    have hstep := irExcluded_post precEnd e parent parents result hchain hwf hpe hsd hb
    unfold irExcludedList
    rcases hcall : irExcluded precEnd e parent parents result with ⟨p1, ps1, res1⟩ | res1
    · rw [hcall] at hstep
      dsimp only
      obtain ⟨ssd, sbelow, ssuffix, sagree, smem⟩ := hstep
      have hchain1 : List.Chain' RLe (p1 :: ps1) := by
        obtain ⟨t, ht⟩ := ssuffix
        have h := hchain
        rw [← ht] at h
        exact h.right_of_append
      have hwf1 : ∀ q ∈ p1 :: ps1, q.startByte ≤ q.endByte :=
        fun q hq => hwf q (ssuffix.subset hq)
      have hrest := ih e.endByte p1 ps1 res1 hchain1 hwf1 hE' ssd (below_mono sbelow hee)
      rcases hcall2 : irExcludedList e.endByte rest p1 ps1 res1
        with ⟨p2, ps2, res2⟩ | res2
      · rw [hcall2] at hrest
        obtain ⟨isd, ibelow, isuffix, iagree, imem⟩ := hrest
        refine ⟨isd, ?_, isuffix.trans ssuffix, ?_, ?_⟩
        · intro b hb' hle
          have h1 : Below res1 b := below_mono sbelow (hle e (List.mem_cons_self e rest))
          exact ibelow b h1 (fun q hq => hle q (List.mem_cons_of_mem e hq))
        · intro b hble x hx
          have hxe : e.startByte ≤ x :=
            Nat.le_trans (hble e (List.mem_cons_self e rest)) hx
          exact (iagree b (fun q hq => hble q (List.mem_cons_of_mem e hq)) x hx).trans
            (sagree x hxe)
        · intro x
          simp only [gapsMem]
          rw [imem x]
          constructor
          · rintro (hm1 | ⟨hg, hmP1⟩)
            · rcases (smem x).mp hm1 with hm | ⟨h1, h2, hm⟩
              · exact Or.inl hm
              · have h1' : precEnd ≤ x := h1
                have h2' : x < e.startByte := h2
                exact Or.inr ⟨Or.inl ⟨h1', h2'⟩, hm⟩
            · have hxl : e.endByte ≤ x := gapsMem_lb rest e.endByte x hE' hg
              have hxe : e.startByte ≤ x := by omega
              exact Or.inr ⟨Or.inr hg, (sagree x hxe).mp hmP1⟩
          · rintro (hm | ⟨⟨hg1, hg2⟩ | hg, hmP⟩)
            · exact Or.inl ((smem x).mpr (Or.inl hm))
            · exact Or.inl ((smem x).mpr (Or.inr ⟨hg1, hg2, hmP⟩))
            · have hxl : e.endByte ≤ x := gapsMem_lb rest e.endByte x hE' hg
              have hxe : e.startByte ≤ x := by omega
              exact Or.inr ⟨hg, (sagree x hxe).mpr hmP⟩
      · rw [hcall2] at hrest
        obtain ⟨isd, ibelow, idead, imem⟩ := hrest
        refine ⟨isd, ?_, ?_, ?_⟩
        · intro b hb' hle
          have h1 : Below res1 b := below_mono sbelow (hle e (List.mem_cons_self e rest))
          exact ibelow b h1 (fun q hq => hle q (List.mem_cons_of_mem e hq))
        · intro b hble x hx hmemP
          have hxe : e.startByte ≤ x :=
            Nat.le_trans (hble e (List.mem_cons_self e rest)) hx
          exact idead b (fun q hq => hble q (List.mem_cons_of_mem e hq)) x hx
            ((sagree x hxe).mpr hmemP)
        · intro x
          simp only [gapsMem]
          rw [imem x]
          constructor
          · rintro (hm1 | ⟨hg, hmP1⟩)
            · rcases (smem x).mp hm1 with hm | ⟨h1, h2, hm⟩
              · exact Or.inl hm
              · have h1' : precEnd ≤ x := h1
                have h2' : x < e.startByte := h2
                exact Or.inr ⟨Or.inl ⟨h1', h2'⟩, hm⟩
            · have hxl : e.endByte ≤ x := gapsMem_lb rest e.endByte x hE' hg
              have hxe : e.startByte ≤ x := by omega
              exact Or.inr ⟨Or.inr hg, (sagree x hxe).mp hmP1⟩
          · rintro (hm | ⟨⟨hg1, hg2⟩ | hg, hmP⟩)
            · exact Or.inl ((smem x).mpr (Or.inl hm))
            · exact Or.inl ((smem x).mpr (Or.inr ⟨hg1, hg2, hmP⟩))
            · have hxl : e.endByte ≤ x := gapsMem_lb rest e.endByte x hE' hg
              have hxe : e.startByte ≤ x := by omega
              exact Or.inr ⟨hg, (sagree x hxe).mpr hmP⟩
    · rw [hcall] at hstep
      dsimp only
      obtain ⟨ssd, sbelow, sdead, smem⟩ := hstep
      refine ⟨ssd, ?_, ?_, ?_⟩
      · intro b hb' hle
        exact below_mono sbelow (hle e (List.mem_cons_self e rest))
      · intro b hble x hx hm
        exact sdead x (show e.startByte ≤ x from
          Nat.le_trans (hble e (List.mem_cons_self e rest)) hx) hm
      · intro x
        simp only [gapsMem]
        constructor
        · intro hm1
          rcases (smem x).mp hm1 with hm | ⟨h1, h2, hm⟩
          · exact Or.inl hm
          · have h1' : precEnd ≤ x := h1
            have h2' : x < e.startByte := h2
            exact Or.inr ⟨Or.inl ⟨h1', h2'⟩, hm⟩
        · rintro (hm | ⟨⟨hg1, hg2⟩ | hg, hmP⟩)
          · exact (smem x).mpr (Or.inl hm)
          · exact (smem x).mpr (Or.inr ⟨hg1, hg2, hmP⟩)
          · have hxl : e.endByte ≤ x := gapsMem_lb rest e.endByte x hE' hg
            exact absurd hmP (sdead x (show e.startByte ≤ x by omega))

/-- Every excluded range of an ascending walk starts at or after the
walk's starting point. -/
theorem exclsChain_lb : ∀ (l : List TSRange) (p : Nat),
    ExclsChain p l → ∀ e ∈ l, p ≤ e.startByte := by
  intro l
  induction l with
  | nil =>
    intro p _ e he
    cases he
  | cons f r ih =>
    intro p hE e he
    obtain ⟨h1, h2, hE'⟩ := hE
    rcases List.mem_cons.mp he with h | h
    · subst h
      exact h1
    · have := ih f.endByte hE' e h
      omega

/-- The gaps of the walk over `children ++ [following]` are exactly the
bytes from the walk's start up to the following range's start that lie
in no child. -/
theorem gapsMem_tail : ∀ (cs : List TSRange) (p : Nat) (last : TSRange) (x : Nat),
    ExclsChain p (cs ++ [last]) →
    (gapsMem p (cs ++ [last]) x ↔ (p ≤ x ∧ x < last.startByte ∧ ¬ MemR x cs)) := by
  intro cs
  induction cs with
  | nil =>
    intro p last x hE
    simp only [List.nil_append, gapsMem]
    constructor
    · rintro (⟨h1, h2⟩ | hg)
      · exact ⟨h1, h2, memR_nil x⟩
      · simp only [gapsMem] at hg
    · rintro ⟨h1, h2, _⟩
      exact Or.inl ⟨h1, h2⟩
  | cons c cs' ih =>
    intro p last x hE
    obtain ⟨h1, h2, hE'⟩ := hE
    have hlb := exclsChain_lb (cs' ++ [last]) c.endByte hE'
    have hlast : c.endByte ≤ last.startByte := hlb last (by simp)
    simp only [List.cons_append, gapsMem, List.append_eq]
    rw [ih c.endByte last x hE', memR_cons]
    constructor
    · rintro (⟨ha1, ha2⟩ | ⟨hb1, hb2, hb3⟩)
      · refine ⟨ha1, by omega, ?_⟩
        rintro (⟨hc1, hc2⟩ | hm)
        · omega
        · have := memR_lb (fun q hq => hlb q (List.mem_append_left _ hq)) hm
          omega
      · refine ⟨by omega, hb2, ?_⟩
        rintro (⟨hc1, hc2⟩ | hm)
        · omega
        · exact hb3 hm
    · rintro ⟨hd1, hd2, hd3⟩
      by_cases hcx : x < c.startByte
      · exact Or.inl ⟨hd1, hcx⟩
      · refine Or.inr ⟨?_, hd2, fun hm => hd3 (Or.inr hm)⟩
        by_contra hlt
        exact hd3 (Or.inl ⟨by omega, by omega⟩)

/-- The excluded-range list a well-formed node produces (its children in
order, then the following range) is an ascending walk. -/
theorem exclsChain_children : ∀ (cs : List TSRange) (p : Nat) (last : TSRange),
    (∀ c ∈ cs, c.startByte ≤ c.endByte ∧ c.endByte ≤ last.startByte) →
    List.Chain' RLe cs →
    (∀ c ∈ cs, p ≤ c.startByte) →
    p ≤ last.startByte → last.startByte ≤ last.endByte →
    ExclsChain p (cs ++ [last]) := by
  intro cs
  induction cs with
  | nil =>
    intro p last _ _ _ h1 h2
    exact ⟨h1, h2, trivial⟩
  | cons c cs' ih =>
    intro p last hcont hchain hp h1 h2
    have hcc := hcont c (List.mem_cons_self c cs')
    refine ⟨hp c (List.mem_cons_self c cs'), hcc.1, ?_⟩
    refine ih c.endByte last (fun q hq => hcont q (List.mem_cons_of_mem c hq))
      hchain.tail ?_ hcc.2 h2
    exact chainLower hchain (fun q hq => (hcont q (List.mem_cons_of_mem c hq)).1)

/-- Transfer of the excluded-range-walk postcondition to the per-node
postcondition, given that the walked gaps are exactly the node's byte
set and every excluded start stays below the node's end. -/
theorem elpost_to_npost (n : SNode) (incl : Bool) (cs : List TSRange)
    (parent : TSRange) (parents result : List TSRange)
    (out : (TSRange × List TSRange × List TSRange) ⊕ List TSRange)
    (hmemEq : ∀ x, gapsMem n.startByte (cs ++ [⟨n.endByte, UINTMAX⟩]) x ↔ nodeMem n incl x)
    (hLE : ∀ b, n.endByte ≤ b → ExclsLE (cs ++ [⟨n.endByte, UINTMAX⟩]) b)
    (hel : ELPost n.startByte (cs ++ [⟨n.endByte, UINTMAX⟩]) parent parents result out) :
    NPost n incl parent parents result out := by
  rcases out with ⟨p', ps', res'⟩ | res'
  · obtain ⟨q1, q2, q3, q4, q5⟩ := hel
    refine ⟨q1, ?_, q3, ?_, ?_⟩
    · intro bd hbel hnb
      exact q2 bd hbel (hLE bd hnb)
    · intro x hx
      exact q4 x (hLE x hx) x (Nat.le_refl x)
    · intro x
      rw [q5 x, hmemEq x]
  · obtain ⟨q1, q2, q3, q4⟩ := hel
    refine ⟨q1, ?_, ?_, ?_⟩
    · intro bd hbel hnb
      exact q2 bd hbel (hLE bd hnb)
    · intro x hx
      exact q3 x (hLE x hx) x (Nat.le_refl x)
    · intro x
      rw [q4 x, hmemEq x]

/-- Postcondition of processing one node inside `intersectRanges`. -/
theorem irNode_post (n : SNode) (incl : Bool) (parent : TSRange)
    (parents result : List TSRange)
    (hchain : List.Chain' RLe (parent :: parents))
    (hwf : ∀ p ∈ parent :: parents, p.startByte ≤ p.endByte)
    (hn : NodeWF n)
    (hsd : SortedDisj result) (hb : Below result n.startByte) :
    NPost n incl parent parents result (irNode n incl parent parents result) := by
  obtain ⟨hn1, hn2, hn3, hn4⟩ := hn
  unfold irNode
  dsimp only
  cases incl with
  | false =>
    show NPost n false parent parents result
      (irExcludedList n.startByte (n.children ++ [⟨n.endByte, UINTMAX⟩])
        parent parents result)
    have hE : ExclsChain n.startByte (n.children ++ [⟨n.endByte, UINTMAX⟩]) :=
      exclsChain_children n.children n.startByte ⟨n.endByte, UINTMAX⟩
        (fun c hc => ⟨(hn3 c hc).2.1, (hn3 c hc).2.2⟩) hn4
        (fun c hc => (hn3 c hc).1) hn1 hn2
    have hel := irExcludedList_post (n.children ++ [⟨n.endByte, UINTMAX⟩])
      n.startByte parent parents result hchain hwf hE hsd hb
    refine elpost_to_npost n false n.children parent parents result _ ?_ ?_ hel
    · intro x
      rw [gapsMem_tail n.children n.startByte ⟨n.endByte, UINTMAX⟩ x hE]
      unfold nodeMem
      constructor
      · rintro ⟨a, b2, c⟩
        exact ⟨a, b2, Or.inr c⟩
      · rintro ⟨a, b2, hc | hc⟩
        · cases hc
        · exact ⟨a, b2, hc⟩
    · intro b hby e he
      rcases List.mem_append.mp he with h | h
      · have hw1 := (hn3 e h).2.1
        have hw2 := (hn3 e h).2.2
        omega
      · have he' : e = ⟨n.endByte, UINTMAX⟩ := by simpa using h
        subst he'
        exact hby
  | true =>
    show NPost n true parent parents result
      (irExcludedList n.startByte ([] ++ [⟨n.endByte, UINTMAX⟩])
        parent parents result)
    have hE : ExclsChain n.startByte ([] ++ [⟨n.endByte, UINTMAX⟩]) :=
      exclsChain_children [] n.startByte ⟨n.endByte, UINTMAX⟩
        (fun c hc => absurd hc (List.not_mem_nil c)) List.chain'_nil
        (fun c hc => absurd hc (List.not_mem_nil c)) hn1 hn2
    have hel := irExcludedList_post ([] ++ [⟨n.endByte, UINTMAX⟩])
      n.startByte parent parents result hchain hwf hE hsd hb
    refine elpost_to_npost n true [] parent parents result _ ?_ ?_ hel
    · intro x
      rw [gapsMem_tail [] n.startByte ⟨n.endByte, UINTMAX⟩ x hE]
      unfold nodeMem
      constructor
      · rintro ⟨a, b2, _⟩
        exact ⟨a, b2, Or.inl rfl⟩
      · rintro ⟨a, b2, _⟩
        exact ⟨a, b2, memR_nil x⟩
    · intro b hby e he
      have he' : e = ⟨n.endByte, UINTMAX⟩ := by simpa using he
      subst he'
      exact hby

/-- In a sorted, disjoint node list, every later node starts at or after
the head's end. -/
theorem chainLowerN {n : SNode} {ns : List SNode}
    (hc : List.Chain' RLeN (n :: ns))
    (hwf : ∀ m ∈ ns, m.startByte ≤ m.endByte) :
    ∀ m ∈ ns, n.endByte ≤ m.startByte := by
  induction ns generalizing n with
  | nil =>
    intro m hm
    cases hm
  | cons m ms ih =>
    intro m' hm'
    have h1 : n.endByte ≤ m.startByte := (List.chain'_cons.mp hc).1
    rcases List.mem_cons.mp hm' with h | h
    · subst h
      exact h1
    · have h2 := ih (List.chain'_cons.mp hc).2
        (fun q hq => hwf q (List.mem_cons_of_mem m hq)) m' h
      have h3 := hwf m (List.mem_cons_self m ms)
      omega

/-- In a sorted, disjoint node list, a byte lies inside at most one
node's range. -/
theorem nodes_at_x_unique : ∀ (ns : List SNode),
    List.Chain' RLeN ns → (∀ m ∈ ns, m.startByte ≤ m.endByte) →
    ∀ (x : Nat) (a b : SNode), a ∈ ns → b ∈ ns →
      a.startByte ≤ x → x < a.endByte → b.startByte ≤ x → x < b.endByte → a = b := by
  intro ns
  induction ns with
  | nil =>
    intro _ _ x a b ha
    cases ha
  | cons n ms ih =>
    intro hc hwf x a b ha hb ha1 ha2 hb1 hb2
    have hlow := chainLowerN hc (fun q hq => hwf q (List.mem_cons_of_mem n hq))
    rcases List.mem_cons.mp ha with h | h <;> rcases List.mem_cons.mp hb with h' | h'
    · subst h
      subst h'
      rfl
    · subst h
      have := hlow b h'
      omega
    · subst h'
      have := hlow a h
      omega
    · exact ih hc.tail (fun q hq => hwf q (List.mem_cons_of_mem n hq)) x a b h h'
        ha1 ha2 hb1 hb2

/-- A byte the spec assigns to a node lies at or after the node's
start. -/
theorem nodeMem_lb {n : SNode} {incl : Bool} {x : Nat}
    (h : nodeMem n incl x) : n.startByte ≤ x := h.1

/-- Postcondition of the node loop of `intersectRanges`: starting from a
sorted result lying below every node, the loop appends exactly the
parent-intersected byte sets of the nodes, in order. -/
theorem irNodes_post :
    ∀ (nodes : List SNode) (incl : Bool) (parent : TSRange)
      (parents result : List TSRange),
      List.Chain' RLe (parent :: parents) →
      (∀ p ∈ parent :: parents, p.startByte ≤ p.endByte) →
      (∀ n ∈ nodes, NodeWF n) →
      List.Chain' RLeN nodes →
      SortedDisj result →
      (∀ n ∈ nodes, Below result n.startByte) →
      SortedDisj (irNodes nodes incl parent parents result) ∧
      (∀ x, MemR x (irNodes nodes incl parent parents result) ↔
        MemR x result ∨ (nodesMem nodes incl x ∧ MemR x (parent :: parents))) := by
  intro nodes
  induction nodes with
  | nil =>
    intro incl parent parents result _ _ _ _ hsd _
    unfold irNodes
    refine ⟨hsd, ?_⟩
    intro x
    constructor
    · exact Or.inl
    · rintro (hm | ⟨⟨m, hm, _⟩, _⟩)
      · exact hm
      · cases hm
  | cons n1 rest ih =>
    intro incl parent parents result hchain hwf hN hNchain hsd hBel
    have hwfN : ∀ m ∈ rest, m.startByte ≤ m.endByte :=
      fun m hm => (hN m (List.mem_cons_of_mem n1 hm)).1
    have hlowN : ∀ m ∈ rest, n1.endByte ≤ m.startByte := chainLowerN hNchain hwfN
    have hnp := irNode_post n1 incl parent parents result hchain hwf
      (hN n1 (List.mem_cons_self n1 rest)) hsd (hBel n1 (List.mem_cons_self n1 rest))
    unfold irNodes
    rcases hcall : irNode n1 incl parent parents result with ⟨p1, ps1, res1⟩ | res1
    · rw [hcall] at hnp
      dsimp only
      obtain ⟨asd, abelow, asuffix, aagree, amem⟩ := hnp
      have hchain1 : List.Chain' RLe (p1 :: ps1) := by
        obtain ⟨t, ht⟩ := asuffix
        have h := hchain
        rw [← ht] at h
        exact h.right_of_append
      have hwf1 : ∀ q ∈ p1 :: ps1, q.startByte ≤ q.endByte :=
        fun q hq => hwf q (asuffix.subset hq)
      have hBel1 : ∀ m ∈ rest, Below res1 m.startByte := by
        intro m hm
        exact abelow m.startByte (hBel m (List.mem_cons_of_mem n1 hm)) (hlowN m hm)
      obtain ⟨rsd, rmem⟩ := ih incl p1 ps1 res1 hchain1 hwf1
        (fun m hm => hN m (List.mem_cons_of_mem n1 hm)) hNchain.tail asd hBel1
      refine ⟨rsd, ?_⟩
      intro x
      rw [rmem x, amem x]
      constructor
      · rintro ((hm | ⟨hnm, hmp⟩) | ⟨⟨m, hm, hmm⟩, hmp⟩)
        · exact Or.inl hm
        · exact Or.inr ⟨⟨n1, List.mem_cons_self n1 rest, hnm⟩, hmp⟩
        · have hx1 : n1.endByte ≤ x := Nat.le_trans (hlowN m hm) (nodeMem_lb hmm)
          exact Or.inr ⟨⟨m, List.mem_cons_of_mem n1 hm, hmm⟩, (aagree x hx1).mp hmp⟩
      · rintro (hm | ⟨⟨m, hm, hmm⟩, hmp⟩)
        · exact Or.inl (Or.inl hm)
        · rcases List.mem_cons.mp hm with h | h
          · subst h
            exact Or.inl (Or.inr ⟨hmm, hmp⟩)
          · have hx1 : n1.endByte ≤ x := Nat.le_trans (hlowN m h) (nodeMem_lb hmm)
            exact Or.inr ⟨⟨m, h, hmm⟩, (aagree x hx1).mpr hmp⟩
    · rw [hcall] at hnp
      dsimp only
      obtain ⟨asd, abelow, adead, amem⟩ := hnp
      refine ⟨asd, ?_⟩
      intro x
      rw [amem x]
      constructor
      · rintro (hm | ⟨hnm, hmp⟩)
        · exact Or.inl hm
        · exact Or.inr ⟨⟨n1, List.mem_cons_self n1 rest, hnm⟩, hmp⟩
      · rintro (hm | ⟨⟨m, hm, hmm⟩, hmp⟩)
        · exact Or.inl hm
        · rcases List.mem_cons.mp hm with h | h
          · subst h
            exact Or.inr ⟨hmm, hmp⟩
          · have hx1 : n1.endByte ≤ x := Nat.le_trans (hlowN m h) (nodeMem_lb hmm)
            exact absurd hmp (adead x hx1)

/-- The boolean union-membership test agrees with the propositional
one. -/
theorem memRanges_iff (x : Nat) (rs : List TSRange) :
    memRanges x rs = true ↔ MemR x rs := by
  simp [memRanges, MemR, TSRange.containsB, List.any_eq_true,
    Bool.and_eq_true, decide_eq_true_eq]

/-- A sorted, disjoint list of real ranges passes the boolean
sorted-disjoint check. -/
theorem rangesSortedDisjoint_of : ∀ (rs : List TSRange),
    SortedDisj rs → rangesSortedDisjoint rs = true := by
  intro rs
  induction rs with
  | nil =>
    intro _
    rfl
  | cons a rest ih =>
    intro h
    obtain ⟨hchain, hne⟩ := h
    cases rest with
    | nil =>
      simp only [rangesSortedDisjoint, decide_eq_true_eq]
      exact hne a (List.mem_singleton_self a)
    | cons b rest' =>
      have h1 : a.startByte < a.endByte := hne a (List.mem_cons_self a (b :: rest'))
      have h2 : a.endByte ≤ b.startByte := (List.chain'_cons.mp hchain).1
      simp only [rangesSortedDisjoint, Bool.and_eq_true, decide_eq_true_eq]
      exact ⟨⟨h1, h2⟩, ih ⟨(List.chain'_cons.mp hchain).2,
        fun q hq => hne q (List.mem_cons_of_mem a hq)⟩⟩

/-- Over sorted, disjoint, well-formed nodes, the spec's boolean
membership test for `intersect_ranges` agrees with the per-node set. -/
theorem intersectSpecMem_iff (P : List TSRange) (nodes : List SNode)
    (incl : Bool) (x : Nat)
    (hN : ∀ n ∈ nodes, NodeWF n) (hNchain : List.Chain' RLeN nodes) :
    intersectSpecMem P nodes incl x = true ↔
      (nodesMem nodes incl x ∧ MemR x P) := by
  have hwfl : ∀ m ∈ nodes, m.startByte ≤ m.endByte := fun m hm => (hN m hm).1
  simp only [intersectSpecMem, Bool.and_eq_true, List.any_eq_true,
    Bool.or_eq_true, Bool.not_eq_true', List.any_eq_false,
    memRanges_iff, TSRange.containsB, Bool.and_eq_true, decide_eq_true_eq]
  constructor
  · rintro ⟨⟨⟨m, hm, hm1, hm2⟩, hB⟩, hC⟩
    refine ⟨⟨m, hm, hm1, hm2, ?_⟩, hC⟩
    rcases hB with hB | hB
    · exact Or.inl hB
    · exact Or.inr (by simpa [memRanges_iff] using hB m hm)
  · rintro ⟨⟨m, hm, hm1, hm2, hm3⟩, hC⟩
    refine ⟨⟨⟨m, hm, hm1, hm2⟩, ?_⟩, hC⟩
    rcases hm3 with hm3 | hm3
    · exact Or.inl hm3
    · refine Or.inr ?_
      intro q hq
      intro hmc
      have hq3 := hN q hq
      have hqx1 : q.startByte ≤ x := by
        obtain ⟨c, hc, hc1, hc2⟩ := hmc
        have := (hq3.2.2.1 c hc).1
        omega
      have hqx2 : x < q.endByte := by
        obtain ⟨c, hc, hc1, hc2⟩ := hmc
        have := (hq3.2.2.1 c hc).2.2
        omega
      have heq := nodes_at_x_unique nodes hNchain hwfl x q m hq hm hqx1 hqx2 hm1 hm2
      subst heq
      exact hm3 hmc

/-- Claim C3 (corrected): the claim asserts the sweep is correct for any
non-empty node list in document order; that is too weak (nested nodes
break it — see the counterexample), but with the nodes additionally
pairwise disjoint (each node ending no later than the next begins) and
well-formed, and the parent ranges non-empty, sorted and disjoint,
`intersectRanges` returns a sorted, disjoint list of ranges whose union
is exactly the union of the nodes' ranges, minus each node's direct
children when `includesChildren` is false, intersected with the union of
the parent ranges. -/
theorem C3_intersectRanges_correct
    (parentRanges : List TSRange) (nodes : List SNode) (incl : Bool)
    (hPc : List.Chain' RLe parentRanges)
    (hPwf : ∀ p ∈ parentRanges, p.startByte ≤ p.endByte)
    (hPne : parentRanges ≠ [])
    (hN : ∀ n ∈ nodes, NodeWF n)
    (hNchain : List.Chain' RLeN nodes)
    (hNne : nodes ≠ []) :
    ∃ res, intersectRanges parentRanges nodes incl = some res ∧
      rangesSortedDisjoint res = true ∧
      ∀ x, memRanges x res = intersectSpecMem parentRanges nodes incl x := by
  rcases nodes with _ | ⟨n1, rest⟩
  · exact absurd rfl hNne
  rcases parentRanges with _ | ⟨p, ps⟩
  · exact absurd rfl hPne
  obtain ⟨hsd, hmem⟩ := irNodes_post (n1 :: rest) incl p ps [] hPc hPwf hN hNchain
    ⟨List.chain'_nil, fun q hq => absurd hq (List.not_mem_nil q)⟩
    (fun n _ => fun q hq => absurd hq (List.not_mem_nil q))
  refine ⟨irNodes (n1 :: rest) incl p ps [], rfl, rangesSortedDisjoint_of _ hsd, ?_⟩
  intro x
  rw [Bool.eq_iff_iff, memRanges_iff,
    intersectSpecMem_iff (p :: ps) (n1 :: rest) incl x hN hNchain, hmem x]
  constructor
  · rintro (hm | h)
    · exact absurd hm (memR_nil x)
    · exact h
  · exact Or.inr

/-- Claim C3 witness: the corrected statement evaluated at one concrete
input — one parent range `[0,10)`, one node `[0,4)` with a child
`[1,3)`, children excluded. -/
theorem C3_intersectRanges_correct_witness :
    (([⟨0, 10⟩] : List TSRange) ≠ [] ∧ ([⟨0, 4, [⟨1, 3⟩]⟩] : List SNode) ≠ []) ∧
    (∃ res, intersectRanges [⟨0, 10⟩] [⟨0, 4, [⟨1, 3⟩]⟩] false = some res ∧
      rangesSortedDisjoint res = true ∧
      ∀ x, memRanges x res = intersectSpecMem [⟨0, 10⟩] [⟨0, 4, [⟨1, 3⟩]⟩] false x) :=
  ⟨⟨by decide, by decide⟩,
    C3_intersectRanges_correct [⟨0, 10⟩] [⟨0, 4, [⟨1, 3⟩]⟩] false
      (List.chain'_singleton _)
      (by decide)
      (by decide)
      (by
        intro n hn
        rw [List.mem_singleton] at hn
        subst hn
        refine ⟨by decide, by decide, ?_, List.chain'_singleton _⟩
        intro c hc
        rw [List.mem_singleton] at hc
        subst hc
        exact ⟨by decide, by decide, by decide⟩)
      (List.chain'_singleton _)
      (by decide)⟩

/-- Claim C3 counterexample: with nodes merely in document order, as the
claim states — here the nested pair `[0,4)` (with a child) and `[2,3)` —
the sweep emits the overlapping ranges `[0,4)` and `[2,3)`, so the
returned list is not sorted and disjoint and the original claim fails. -/
theorem C3_counterexample :
    intersectRanges [⟨0, 10⟩] [⟨0, 4, [⟨1, 3⟩]⟩, ⟨2, 3, []⟩] true
      = some [⟨0, 4⟩, ⟨2, 3⟩] ∧
    rangesSortedDisjoint [⟨0, 4⟩, ⟨2, 3⟩] = false :=
  ⟨by decide, by decide⟩

/-- `sortLayers` only reorders or drops layers. -/
theorem sortLayers_subset : ∀ (ls : List IterLayer), ∀ l ∈ sortLayers ls, l ∈ ls := by
  intro ls
  induction ls with
  | nil =>
    intro l h
    simpa [sortLayers] using h
  | cons hd rest ih =>
    intro l h
    unfold sortLayers at h
    rcases hk : hd.sortKey with _ | key
    · rw [hk] at h
      exact List.mem_cons_of_mem hd (ih l h)
    · rw [hk] at h
      dsimp only at h
      split at h
      · rcases List.mem_append.mp h with h1 | h1
        · unfold rotateLeft1 at h1
          rcases List.mem_append.mp h1 with h2 | h2
          · exact List.mem_of_mem_take (List.mem_of_mem_drop h2)
          · exact List.mem_of_mem_take (List.mem_of_mem_take h2)
        · exact List.mem_of_mem_drop h1
      · exact h

/-- The insertion scan only adds the new layer and keeps or drops the
old ones. -/
theorem insertLayerAux_subset : ∀ (ls : List IterLayer) (key : SortKey)
    (layer : IterLayer), ∀ l ∈ insertLayerAux key layer ls, l = layer ∨ l ∈ ls := by
  intro ls
  induction ls with
  | nil =>
    intro key layer l h
    simp only [insertLayerAux] at h
    rcases List.mem_singleton.mp h with h1
    exact Or.inl h1
  | cons hd rest ih =>
    intro key layer l h
    unfold insertLayerAux at h
    rcases hk : hd.sortKey with _ | keyI
    · rw [hk] at h
      rcases ih key layer l h with h1 | h1
      · exact Or.inl h1
      · exact Or.inr (List.mem_cons_of_mem hd h1)
    · rw [hk] at h
      dsimp only at h
      split at h
      · rcases List.mem_cons.mp h with h1 | h1
        · exact Or.inl h1
        · exact Or.inr h1
      · rcases List.mem_cons.mp h with h1 | h1
        · exact Or.inr (h1 ▸ List.mem_cons_self hd rest)
        · rcases ih key layer l h1 with h2 | h2
          · exact Or.inl h2
          · exact Or.inr (List.mem_cons_of_mem hd h2)

/-- `insertLayer` only adds the given layer. -/
theorem insertLayer_subset (layer : IterLayer) (ls : List IterLayer) :
    ∀ l ∈ insertLayer layer ls, l = layer ∨ l ∈ ls := by
  intro l h
  unfold insertLayer at h
  rcases hk : layer.sortKey with _ | key
  · rw [hk] at h
    exact Or.inr h
  · rw [hk] at h
    rcases ls with _ | ⟨l0, rest⟩
    · exact Or.inl (List.mem_singleton.mp h)
    · rcases List.mem_cons.mp h with h1 | h1
      · exact Or.inr (h1 ▸ List.mem_cons_self l0 rest)
      · rcases insertLayerAux_subset rest key layer l h1 with h2 | h2
        · exact Or.inl h2
        · exact Or.inr (List.mem_cons_of_mem l0 h2)

/-- Folding `insertLayer` over new layers only adds those layers. -/
theorem foldl_insertLayer_subset : ∀ (nls : List IterLayer) (acc : List IterLayer),
    ∀ l ∈ nls.foldl (fun ls nl => insertLayer nl ls) acc, l ∈ nls ∨ l ∈ acc := by
  intro nls
  induction nls with
  | nil =>
    intro acc l h
    exact Or.inr h
  | cons nl nrest ih =>
    intro acc l h
    simp only [List.foldl_cons] at h
    rcases ih (insertLayer nl acc) l h with h1 | h1
    · exact Or.inl (List.mem_cons_of_mem nl h1)
    · rcases insertLayer_subset nl acc l h1 with h2 | h2
      · exact Or.inl (h2 ▸ List.mem_cons_self nl nrest)
      · exact Or.inr h2

/-- The locals loop only consumes stream items: whichever way it exits,
the remaining stream items all come from the input stream. -/
theorem localsLoop_sub : ∀ (captures : List StreamItem) (cfg : HConfig)
    (source : List Char) (r : Nat × Nat) (m : StreamMatch)
    (capture : StreamCapture) (refH defH : Option Nat) (scopes : List LocalScope),
    (∀ cs ss, localsLoop cfg source r m capture refH defH scopes captures
        = .continueMain cs ss → ∀ it ∈ cs, it ∈ captures) ∧
    (∀ cs ss m' c' rH dH, localsLoop cfg source r m capture refH defH scopes captures
        = .highlight cs ss m' c' rH dH → ∀ it ∈ cs, it ∈ captures) := by
  intro captures
  induction captures with
  | nil =>
    intro cfg source r m capture refH defH scopes
    constructor
    · intro cs ss h it hit
      unfold localsLoop at h
      split at h
      · dsimp only at h
        cases h
        exact hit
      · cases h
    · intro cs ss m' c' rH dH h it hit
      unfold localsLoop at h
      split at h
      · dsimp only at h
        cases h
      · cases h
        exact hit
  | cons next moreRest ih =>
    intro cfg source r m capture refH defH scopes
    constructor
    · intro cs ss h it hit
      unfold localsLoop at h
      split at h
      · dsimp only at h
        split at h
        · have := (ih cfg source r next.m next.capture _ _ _).1 cs ss h it hit
          exact List.mem_cons_of_mem next this
        · cases h
          exact hit
      · cases h
    · intro cs ss m' c' rH dH h it hit
      unfold localsLoop at h
      split at h
      · dsimp only at h
        split at h
        · have := (ih cfg source r next.m next.capture _ _ _).2 cs ss m' c' rH dH h it hit
          exact List.mem_cons_of_mem next this
        · cases h
      · cases h
        exact hit

/-- The overshadow loop only consumes or filters stream items. -/
theorem overshadow_sub (cfg : HConfig) : ∀ (fuel : Nat) (m : StreamMatch)
    (capture : StreamCapture) (refH defH : Option Nat) (stream : List StreamItem),
    ∀ it ∈ (overshadow cfg fuel m capture refH defH stream).2.2, it ∈ stream := by
  intro fuel
  induction fuel with
  | zero =>
    intro m capture refH defH stream it hit
    simpa [overshadow] using hit
  | succ fuel ih =>
    intro m capture refH defH stream it hit
    unfold overshadow at hit
    rcases stream with _ | ⟨next, restItems⟩
    · simpa using hit
    · dsimp only at hit
      split at hit
      · split at hit
        · exact List.mem_cons_of_mem next (ih m capture refH defH restItems it hit)
        · have := ih next.m next.capture refH defH
            (restItems.filter fun i => decide (i.m.mid ≠ m.mid)) it hit
          exact List.mem_cons_of_mem next (List.mem_of_mem_filter this)
      · exact hit

/-- A step specification proved against a state that differs only in
fields other than the source and the byte offset transfers back. -/
theorem stepSpec_yield_of {st st1 : IterState} (hsrc : st1.source = st.source)
    (hoffeq : st1.byteOffset = st.byteOffset) :
    ∀ (e : Option HEvent) (s2 : IterState),
      StepSpec st1 (.yield e s2) → StepSpec st (.yield e s2) := by
  intro e s2 h
  rcases e with _ | ev
  · obtain ⟨h1, h2⟩ := h
    refine ⟨h1.trans hsrc, ?_⟩
    rw [← hoffeq, h2, hsrc]
  · rcases ev with ⟨a, b⟩ | nm | _ | hh | _
    · obtain ⟨h1, h2, h3, h4, h5⟩ := h
      exact ⟨h1.trans hsrc, by rw [← hoffeq]; exact h2, h3, by rw [← hoffeq]; exact h4, h5⟩
    · obtain ⟨h1, h2, h3⟩ := h
      exact ⟨h1.trans hsrc, by rw [← hoffeq]; exact h2, h3⟩
    · obtain ⟨h1, h2, h3⟩ := h
      exact ⟨h1.trans hsrc, by rw [← hoffeq]; exact h2, h3⟩
    · obtain ⟨h1, h2, h3⟩ := h
      exact ⟨h1.trans hsrc, by rw [← hoffeq]; exact h2, h3⟩
    · obtain ⟨h1, h2, h3⟩ := h
      exact ⟨h1.trans hsrc, by rw [← hoffeq]; exact h2, h3⟩

/-- `emitEvents` satisfies the step specification: it either emits the
synthetic `Source` event spanning from the old offset to the target, or
yields the first queued event unchanged. -/
theorem emit_spec (st : IterState) (offset : Nat) (events : List (Option HEvent))
    (hoffL : offset ≤ st.source.length)
    (hoffB : st.byteOffset ≤ st.source.length)
    (hne0 : st.nextEvents = [])
    (hlay : ∀ l ∈ st.layers, LayerWF st.source.length l)
    (hene : events ≠ [])
    (hevs : ∀ ev ∈ events, (∀ a b, ev ≠ some (HEvent.source a b)) ∧
      (ev = none → offset = st.source.length)) :
    StepSpec st (.yield (emitEvents st offset events).1 (emitEvents st offset events).2) := by
  unfold emitEvents
  by_cases hlt : st.byteOffset < offset
  · rw [if_pos hlt]
    refine ⟨rfl, rfl, rfl, hlt, ?_⟩
    refine ⟨hoffL, ?_, ?_⟩
    · intro ev hev
      rw [hne0] at hev
      simp only [List.nil_append] at hev
      refine ⟨(hevs ev hev).1, fun hnone => (hevs ev hev).2 hnone⟩
    · intro l hl
      exact hlay l (sortLayers_subset _ l hl)
  · rw [if_neg hlt]
    dsimp only
    rcases events with _ | ⟨e0, evrest⟩
    · exact absurd rfl hene
    · dsimp only [List.headD]
      have he0 := hevs e0 (List.mem_cons_self e0 evrest)
      rcases e0 with _ | ev
      · refine ⟨rfl, ?_⟩
        have := he0.2 rfl
        omega
      · have hrest : StateWF { st with
            nextEvents := st.nextEvents ++ (some ev :: evrest).drop 1,
            layers := sortLayers st.layers } := by
          refine ⟨hoffB, ?_, fun l hl => hlay l (sortLayers_subset _ l hl)⟩
          intro ev2 hev2
          rw [hne0] at hev2
          simp only [List.nil_append, List.drop_succ_cons, List.drop_zero] at hev2
          have h2 := hevs ev2 (List.mem_cons_of_mem _ hev2)
          refine ⟨h2.1, fun hnone => ?_⟩
          have := h2.2 hnone
          show st.byteOffset = st.source.length
          omega
        rcases ev with ⟨a, b⟩ | nm | _ | hh | _
        · exact absurd rfl (he0.1 a b)
        · exact ⟨rfl, rfl, hrest⟩
        · exact ⟨rfl, rfl, hrest⟩
        · exact ⟨rfl, rfl, hrest⟩
        · exact ⟨rfl, rfl, hrest⟩

/-- `emit_spec` against a working state that differs from the base state
only in fields other than the source, offset and event queue. -/
theorem emit_spec_over (st st1 : IterState) (offset : Nat)
    (events : List (Option HEvent))
    (hsrc : st1.source = st.source) (hoffeq : st1.byteOffset = st.byteOffset)
    (hoffL : offset ≤ st.source.length) (hoffB : st.byteOffset ≤ st.source.length)
    (hne0 : st1.nextEvents = [])
    (hlay : ∀ l ∈ st1.layers, LayerWF st.source.length l)
    (hene : events ≠ [])
    (hevs : ∀ ev ∈ events, (∀ a b, ev ≠ some (HEvent.source a b)) ∧
      (ev = none → offset = st.source.length)) :
    StepSpec st (.yield (emitEvents st1 offset events).1 (emitEvents st1 offset events).2) := by
  refine stepSpec_yield_of hsrc hoffeq _ _
    (emit_spec st1 offset events (by rw [hsrc]; exact hoffL)
      (by rw [hsrc, hoffeq]; exact hoffB) hne0 ?_ hene ?_)
  · intro l hl
    rw [hsrc]
    exact hlay l hl
  · intro ev hev
    refine ⟨(hevs ev hev).1, fun hn => ?_⟩
    rw [hsrc]
    exact (hevs ev hev).2 hn

/-- The highlight tail of the loop body satisfies the step
specification. -/
theorem highlightStep_spec (st : IterState) (layer : IterLayer)
    (rest : List IterLayer) (m : StreamMatch) (capture : StreamCapture)
    (r : Nat × Nat) (refH defH : Option Nat)
    (hoffB : st.byteOffset ≤ st.source.length)
    (hne0 : st.nextEvents = [])
    (hlayerWF : LayerWF st.source.length layer)
    (hr1 : r.1 ≤ st.source.length) (hr2 : r.2 ≤ st.source.length)
    (hrestWF : ∀ l ∈ rest, LayerWF st.source.length l) :
    StepSpec st (highlightStep st layer rest m capture r refH defH) := by
  unfold highlightStep
  dsimp only
  split
  · refine ⟨rfl, rfl, hoffB, ?_, ?_⟩
    · intro ev hev
      simp [hne0] at hev
    · intro l hl
      rcases List.mem_cons.mp (sortLayers_subset _ l hl) with h1 | h1
      · exact h1 ▸ hlayerWF
      · exact hrestWF l h1
  · split
    · rename_i h heq
      refine emit_spec_over st _ r.1 [some (HEvent.captureStart h)] rfl rfl hr1 hoffB
        hne0 ?_ (by simp) ?_
      · intro l hl
        rcases List.mem_cons.mp hl with h1 | h1
        · subst h1
          constructor
          · intro it hit
            exact hlayerWF.1 it (overshadow_sub _ _ _ _ _ _ _ it hit)
          · intro e he
            rcases List.mem_append.mp he with h2 | h2
            · exact hlayerWF.2 e h2
            · have he2 : e = r.2 := by simpa using h2
              omega
        · exact hrestWF l h1
      · intro ev hev
        have hev2 : ev = some (HEvent.captureStart h) := by simpa using hev
        subst hev2
        exact ⟨fun a b hc => (nomatch hc), fun hc => (nomatch hc)⟩
    · refine ⟨rfl, rfl, hoffB, ?_, ?_⟩
      · intro ev hev
        simp [hne0] at hev
      · intro l hl
        rcases List.mem_cons.mp (sortLayers_subset _ l hl) with h1 | h1
        · subst h1
          constructor
          · intro it hit
            exact hlayerWF.1 it (overshadow_sub _ _ _ _ _ _ _ it hit)
          · exact hlayerWF.2
        · exact hrestWF l h1

/-- The capture-consumption part of the loop body satisfies the step
specification. -/
theorem stepConsume_spec (inject : InjectOracle) (st : IterState) (layer : IterLayer)
    (restLayers : List IterLayer) (item : StreamItem) (itemsRest : List StreamItem)
    (hOwf : OracleWF inject st.source.length)
    (hoffB : st.byteOffset ≤ st.source.length)
    (hne0 : st.nextEvents = [])
    (hlayerWF : LayerWF st.source.length layer)
    (hitem : item.capture.nodeStart ≤ st.source.length ∧
      item.capture.nodeEnd ≤ st.source.length)
    (hitems : ∀ it ∈ itemsRest, it ∈ layer.captures)
    (hrestWF : ∀ l ∈ restLayers, LayerWF st.source.length l) :
    StepSpec st (stepConsume inject st layer restLayers item itemsRest) := by
  unfold stepConsume
  dsimp only
  split
  · refine ⟨rfl, rfl, hoffB, ?_, ?_⟩
    · intro ev hev
      simp [hne0] at hev
    · intro l hl
      have h1 := sortLayers_subset _ l hl
      rcases foldl_insertLayer_subset _ _ l h1 with h2 | h2
      · split at h2
        · exact hOwf _ _ _ l h2
        · cases h2
      · rcases List.mem_cons.mp h2 with h3 | h3
        · subst h3
          refine ⟨?_, hlayerWF.2⟩
          intro it hit
          exact hlayerWF.1 it (hitems it (List.mem_of_mem_filter hit))
        · exact hrestWF l h3
  · split
    · rename_i captures' scopes' heq
      refine ⟨rfl, rfl, hoffB, ?_, ?_⟩
      · intro ev hev
        simp [hne0] at hev
      · intro l hl
        rcases List.mem_cons.mp (sortLayers_subset _ l hl) with h1 | h1
        · subst h1
          refine ⟨?_, hlayerWF.2⟩
          intro it hit
          have hsub := (localsLoop_sub itemsRest _ _ _ _ _ _ _ _).1 captures' scopes'
            heq it hit
          exact hlayerWF.1 it (hitems it hsub)
        · exact hrestWF l h1
    · rename_i captures' scopes' m' capture' refH defH heq
      refine highlightStep_spec st _ restLayers m' capture'
        (item.capture.nodeStart, item.capture.nodeEnd) refH defH hoffB hne0
        ⟨?_, hlayerWF.2⟩ hitem.1 hitem.2 hrestWF
      intro it hit
      have hsub := (localsLoop_sub itemsRest _ _ _ _ _ _ _ _).2 captures' scopes' m'
        capture' refH defH heq it hit
      exact hlayerWF.1 it (hitems it hsub)

/-- One iteration of the iterator loop satisfies the step
specification: `Source` events are exactly the offset advances. -/
theorem stepOnce_spec (inject : InjectOracle) (st : IterState)
    (hOwf : OracleWF inject st.source.length) (hwf : StateWF st) :
    StepSpec st (stepOnce inject st) := by
  obtain ⟨hoff, hne, hlay⟩ := hwf
  unfold stepOnce updateFront
  rcases hE : st.nextEvents with _ | ⟨e0, restEvents⟩
  · dsimp only
    rcases hL : st.layers with _ | ⟨layer, restLayers⟩
    · dsimp only
      split
      · rename_i hblt
        refine ⟨rfl, rfl, rfl, hblt, Nat.le_refl _, ?_, ?_⟩
        · intro ev hev
          simp [hE] at hev
        · intro l hl
          simp at hl
      · rename_i hblt
        exact ⟨rfl, by omega⟩
    · dsimp only
      have hlayerWF : LayerWF st.source.length layer :=
        hlay layer (by rw [hL]; exact List.mem_cons_self _ _)
      have hrestWF : ∀ l ∈ restLayers, LayerWF st.source.length l :=
        fun l h => hlay l (by rw [hL]; exact List.mem_cons_of_mem _ h)
      split
      · refine emit_spec_over st _ _
          ((if st.lastLayer ≠ none then [some HEvent.layerEnd] else [])
            ++ [some (HEvent.layerStart layer.config.languageName)])
          rfl rfl hoff hoff rfl ?_ (by simp) ?_
        · intro l hl
          rcases List.mem_cons.mp hl with h1 | h1
          · exact h1 ▸ hlayerWF
          · exact hrestWF l h1
        · intro ev hev
          rcases List.mem_append.mp hev with h | h
          · split at h
            · have hev2 : ev = some HEvent.layerEnd := by simpa using h
              subst hev2
              exact ⟨fun a b hc => (nomatch hc), fun hc => (nomatch hc)⟩
            · cases h
          · have hev2 : ev = some (HEvent.layerStart layer.config.languageName) := by
              simpa using h
            subst hev2
            exact ⟨fun a b hc => (nomatch hc), fun hc => (nomatch hc)⟩
      · rcases hC : layer.captures with _ | ⟨item, itemsRest⟩
        · dsimp only
          rcases hS : layer.highlightEndStack.getLast? with _ | endByte
          · dsimp only
            refine emit_spec st st.source.length [none] (Nat.le_refl _) hoff hE hlay
              (by simp) ?_
            intro ev hev
            have hev2 : ev = none := by simpa using hev
            subst hev2
            exact ⟨fun a b hc => (nomatch hc), fun _ => rfl⟩
          · dsimp only
            refine emit_spec_over st _ endByte [some HEvent.captureEnd] rfl rfl ?_ hoff
              rfl ?_ (by simp) ?_
            · exact hlayerWF.2 endByte
                (List.mem_of_mem_getLast? (Option.mem_def.mpr hS))
            · intro l hl
              rcases List.mem_cons.mp hl with h1 | h1
              · subst h1
                exact ⟨fun it hit => hlayerWF.1 it (by rw [hC]; exact hit),
                  fun e he => hlayerWF.2 e ((List.dropLast_sublist _).subset he)⟩
              · exact hrestWF l h1
            · intro ev hev
              have hev2 : ev = some HEvent.captureEnd := by simpa using hev
              subst hev2
              exact ⟨fun a b hc => (nomatch hc), fun hc => (nomatch hc)⟩
        · dsimp only
          have hitem : item.capture.nodeStart ≤ st.source.length ∧
              item.capture.nodeEnd ≤ st.source.length :=
            hlayerWF.1 item (by rw [hC]; exact List.mem_cons_self _ _)
          have hitems : ∀ it ∈ itemsRest, it ∈ layer.captures :=
            fun it h => by rw [hC]; exact List.mem_cons_of_mem _ h
          rcases hS : layer.highlightEndStack.getLast? with _ | endByte
          · dsimp only
            exact stepConsume_spec inject st layer restLayers item itemsRest hOwf hoff
              hE hlayerWF hitem hitems hrestWF
          · dsimp only
            split
            · refine emit_spec_over st _ endByte [some HEvent.captureEnd] rfl rfl ?_
                hoff rfl ?_ (by simp) ?_
              · exact hlayerWF.2 endByte
                  (List.mem_of_mem_getLast? (Option.mem_def.mpr hS))
              · intro l hl
                rcases List.mem_cons.mp hl with h1 | h1
                · subst h1
                  exact ⟨fun it hit => hlayerWF.1 it (by rw [hC]; exact hit),
                    fun e he => hlayerWF.2 e ((List.dropLast_sublist _).subset he)⟩
                · exact hrestWF l h1
              · intro ev hev
                have hev2 : ev = some HEvent.captureEnd := by simpa using hev
                subst hev2
                exact ⟨fun a b hc => (nomatch hc), fun hc => (nomatch hc)⟩
            · exact stepConsume_spec inject st layer restLayers item itemsRest hOwf
                hoff hE hlayerWF hitem hitems hrestWF
  · dsimp only
    have he0 := hne e0 (by rw [hE]; exact List.mem_cons_self _ _)
    have hrest : StateWF { st with nextEvents := restEvents } := by
      refine ⟨hoff, ?_, hlay⟩
      intro ev2 hev2
      exact hne ev2 (by rw [hE]; exact List.mem_cons_of_mem _ hev2)
    rcases e0 with _ | ev
    · exact ⟨rfl, he0.2 rfl⟩
    · rcases ev with ⟨a, b⟩ | nm | _ | hh | _
      · exact absurd rfl (he0.1 a b)
      · exact ⟨rfl, rfl, hrest⟩
      · exact ⟨rfl, rfl, hrest⟩
      · exact ⟨rfl, rfl, hrest⟩
      · exact ⟨rfl, rfl, hrest⟩

/-- Over a finished run of the iterator, the `Source` events tile the
span from the starting offset to the end of the source. -/
theorem runEvents_tiles (inject : InjectOracle) :
    ∀ (fuel : Nat) (st : IterState), OracleWF inject st.source.length → StateWF st →
      (runEvents inject fuel st).2.2 = true →
      Tiles st.byteOffset st.source.length
        (sourceRanges (runEvents inject fuel st).1) := by
  intro fuel
  induction fuel with
  | zero =>
    intro st _ _ hfin
    simp [runEvents] at hfin
  | succ fuel ih =>
    intro st hOwf hwf hfin
    have hspec := stepOnce_spec inject st hOwf hwf
    unfold runEvents at hfin ⊢
    rcases hcase : stepOnce inject st with ⟨eo, st'⟩ | st'
    · rw [hcase] at hspec hfin
      rcases eo with _ | e
      · dsimp only at hfin ⊢
        show st.byteOffset = st.source.length
        exact hspec.2
      · dsimp only at hfin ⊢
        obtain ⟨hsrc, hrest⟩ := hspec
        rcases e with ⟨a, b⟩ | nm | _ | hh | _
        · obtain ⟨ha, hb, hlt, hwf'⟩ := hrest
          have hOwf' : OracleWF inject st'.source.length := by
            rw [hsrc]
            exact hOwf
          have hih := ih st' hOwf' hwf' hfin
          rw [hsrc, ← hb] at hih
          exact ⟨ha, hlt, hih⟩
        all_goals {
          obtain ⟨hoffeq, hwf'⟩ := hrest
          have hOwf' : OracleWF inject st'.source.length := by
            rw [hsrc]
            exact hOwf
          have hih := ih st' hOwf' hwf' hfin
          rw [hsrc, hoffeq] at hih
          exact hih }
    · rw [hcase] at hspec hfin
      dsimp only at hfin ⊢
      obtain ⟨hsrc, hoffeq, hwf'⟩ := hspec
      have hOwf' : OracleWF inject st'.source.length := by
        rw [hsrc]
        exact hOwf
      have hih := ih st' hOwf' hwf' hfin
      rw [hsrc, hoffeq] at hih
      exact hih

/-- Claim C1: for every source and configuration, over the iterator
state `Highlighter.Highlight` constructs (offset 0, freshly sorted
well-formed layers, no queued events), every event stream the iterator
completes has `Source` events whose half-open ranges, in emission order,
tile `[0, len(source))` exactly: consecutive, non-empty, no overlap and
no gap — so the byte offsets carried by events are non-decreasing.
Proved for every injection oracle that produces well-formed layers and
every fuel bound within which the stream finishes. -/
theorem C1_source_coverage (source languageName : List Char) (layers : List IterLayer)
    (inject : InjectOracle) (fuel : Nat)
    (hOwf : OracleWF inject source.length)
    (hL : ∀ l ∈ layers, LayerWF source.length l)
    (hfin : (runEvents inject fuel (mkInitState source languageName layers)).2.2 = true) :
    Tiles 0 source.length
      (sourceRanges (runEvents inject fuel (mkInitState source languageName layers)).1) := by
  have hwf : StateWF (mkInitState source languageName layers) := by
    refine ⟨Nat.zero_le _, ?_, ?_⟩
    · intro ev hev
      simp [mkInitState] at hev
    · intro l hl
      exact hL l (sortLayers_subset _ l hl)
  exact runEvents_tiles inject fuel (mkInitState source languageName layers) hOwf hwf hfin

/-- Claim C1 witness: the two-byte source with no layers finishes in two
pulls and its single `Source(0,2)` event tiles `[0, 2)`. -/
theorem C1_source_coverage_witness :
    (runEvents (fun _ _ _ => []) 2 (mkInitState "ab".toList [] [])).2.2 = true ∧
    Tiles 0 ("ab".toList.length)
      (sourceRanges (runEvents (fun _ _ _ => []) 2 (mkInitState "ab".toList [] [])).1) :=
  ⟨by decide,
    C1_source_coverage "ab".toList [] [] (fun _ _ _ => []) 2
      (fun _ _ _ nl hnl => absurd hnl (List.not_mem_nil nl))
      (fun l hl => absurd hl (List.not_mem_nil l))
      (by decide)⟩

/-- `emitEvents` with a single bracket-neutral, non-nil event satisfies
the per-step layer-bracket accounting. -/
theorem emit_zero_lbal (st st1 : IterState) (offset : Nat) (ev1 : Option HEvent)
    (hne1 : st1.nextEvents = []) (hq0 : qBal st = 0)
    (hll : st1.lastLayer = st.lastLayer)
    (hf : optLayerBal ev1 = 0) (hnn : ev1 ≠ none) :
    LBal st (.yield (emitEvents st1 offset [ev1]).1 (emitEvents st1 offset [ev1]).2) := by
  unfold emitEvents
  by_cases hlt : st1.byteOffset < offset
  · rw [if_pos hlt]
    refine ⟨⟨?_, ?_⟩, ?_, ?_, ?_, ?_⟩
    · intro hn
      rw [hne1] at hn
      simp only [List.nil_append, List.mem_singleton] at hn
      exact absurd hn.symm hnn
    · intro nm hnm
      rw [hne1] at hnm
      simp only [List.nil_append, List.mem_singleton] at hnm
      rw [← hnm] at hf
      simp [optLayerBal, evLayerBal] at hf
    · have hq0a : (List.map optLayerBal st.nextEvents).sum = 0 := hq0
      have hsrc0 : optLayerBal (some (HEvent.source st1.byteOffset offset)) = 0 := rfl
      by_cases hc : st.lastLayer = none <;>
        simp [qBal, chiBal, hne1, hll, hc, hf, hq0a, hsrc0]
    · intro h
      simp at h
    · simp [chiBal, hll]
    · intro nm h
      simp at h
  · rw [if_neg hlt]
    dsimp only [List.headD]
    refine ⟨⟨?_, ?_⟩, ?_, ?_, ?_, ?_⟩
    · intro hn
      rw [hne1] at hn
      simp at hn
    · intro nm hnm
      rw [hne1] at hnm
      simp at hnm
    · have hq0a : (List.map optLayerBal st.nextEvents).sum = 0 := hq0
      by_cases hc : st.lastLayer = none <;>
        simp [qBal, chiBal, hne1, hll, hc, hf, hq0a]
    · intro h
      exact absurd h hnn
    · simp [chiBal, hll]
    · intro nm h
      rw [h] at hf
      simp [optLayerBal, evLayerBal] at hf

/-- `emitEvents` at the current offset (the layer-change case, which
never advances the offset) satisfies the per-step layer-bracket
accounting when the queued weights and the active-layer flag add up. -/
theorem emit_self_lbal (st st1 : IterState) (evs : List (Option HEvent))
    (hne1 : st1.nextEvents = []) (hq0 : qBal st = 0)
    (hsum : (evs.map optLayerBal).sum + chiBal st = chiBal st1)
    (hmono : chiBal st ≤ chiBal st1)
    (hnn : none ∉ evs)
    (hball : ∀ ev ∈ evs, optLayerBal ev = 1 → chiBal st1 = 1)
    (hene : evs ≠ []) :
    LBal st (.yield (emitEvents st1 st1.byteOffset evs).1
      (emitEvents st1 st1.byteOffset evs).2) := by
  unfold emitEvents
  rw [if_neg (Nat.lt_irrefl _)]
  dsimp only
  rcases evs with _ | ⟨e0, evrest⟩
  · exact absurd rfl hene
  · dsimp only [List.headD]
    refine ⟨⟨?_, ?_⟩, ?_, ?_, ?_, ?_⟩
    · intro hn
      rw [hne1] at hn
      simp only [List.nil_append, List.drop_succ_cons, List.drop_zero] at hn
      exact absurd (List.mem_cons_of_mem e0 hn) hnn
    · intro nm hnm
      rw [hne1] at hnm
      simp only [List.nil_append, List.drop_succ_cons, List.drop_zero] at hnm
      have h1 := hball _ (List.mem_cons_of_mem e0 hnm) rfl
      intro hc
      have hc2 : st1.lastLayer = none := hc
      simp [chiBal, hc2] at h1
    · simp only [List.map_cons, List.sum_cons] at hsum
      have hq0a : (List.map optLayerBal st.nextEvents).sum = 0 := hq0
      simp only [chiBal] at hsum ⊢
      simp only [qBal, hne1, List.nil_append, List.drop_succ_cons, List.drop_zero, hq0a]
      omega
    · intro h
      refine absurd ?_ hnn
      rw [← h]
      exact List.mem_cons_self e0 evrest
    · exact hmono
    · intro nm h
      exact hball e0 (List.mem_cons_self e0 evrest) (by rw [h]; rfl)

/-- The highlight tail of the loop body satisfies the layer-bracket
accounting. -/
theorem highlightStep_lbal (st : IterState) (layer : IterLayer)
    (rest : List IterLayer) (m : StreamMatch) (capture : StreamCapture)
    (r : Nat × Nat) (refH defH : Option Nat)
    (hne0 : st.nextEvents = []) (hq : QBalInv st) :
    LBal st (highlightStep st layer rest m capture r refH defH) := by
  have hq0 : qBal st = 0 := by simp [qBal, hne0]
  unfold highlightStep
  dsimp only
  split
  · exact ⟨hq, rfl, rfl⟩
  · split
    · rename_i h heq
      exact emit_zero_lbal st _ r.1 (some (HEvent.captureStart h)) hne0 hq0 rfl rfl
        (by simp)
    · exact ⟨hq, rfl, rfl⟩

/-- The capture-consumption part of the loop body satisfies the
layer-bracket accounting. -/
theorem stepConsume_lbal (inject : InjectOracle) (st : IterState) (layer : IterLayer)
    (restLayers : List IterLayer) (item : StreamItem) (itemsRest : List StreamItem)
    (hne0 : st.nextEvents = []) (hq : QBalInv st) :
    LBal st (stepConsume inject st layer restLayers item itemsRest) := by
  unfold stepConsume
  dsimp only
  split
  · exact ⟨hq, rfl, rfl⟩
  · split
    · exact ⟨hq, rfl, rfl⟩
    · exact highlightStep_lbal st _ restLayers _ _
        (item.capture.nodeStart, item.capture.nodeEnd) _ _ hne0 hq

/-- One iteration of the iterator loop satisfies the layer-bracket
accounting: `LayerStart`/`LayerEnd` events are emitted exactly when the
active layer starts or changes. -/
theorem stepOnce_lbal (inject : InjectOracle) (st : IterState) (hq : QBalInv st) :
    LBal st (stepOnce inject st) := by
  obtain ⟨hqn, hqs⟩ := hq
  unfold stepOnce updateFront
  rcases hE : st.nextEvents with _ | ⟨e0, restEvents⟩
  · dsimp only
    have hq0 : qBal st = 0 := by simp [qBal, hE]
    rcases hL : st.layers with _ | ⟨layer, restLayers⟩
    · dsimp only
      split
      · refine ⟨⟨?_, ?_⟩, ?_, ?_, ?_, ?_⟩
        · intro hn
          simp at hn
        · intro nm hnm
          simp at hnm
        · have hq0a : (List.map optLayerBal st.nextEvents).sum = 0 := hq0
          by_cases hc : st.lastLayer = none <;>
            simp [qBal, chiBal, hE, hc, optLayerBal, evLayerBal]
        · intro h
          simp at h
        · simp [chiBal]
        · intro nm h
          simp at h
      · exact ⟨⟨hqn, hqs⟩, by simp [optLayerBal], fun _ => ⟨hq0, hq0⟩,
          Int.le_refl _, fun nm h => (nomatch h)⟩
    · dsimp only
      split
      · rcases hLL : st.lastLayer with _ | lid0
        · rw [if_neg (fun hc => hc rfl)]
          simp only [List.nil_append]
          refine emit_self_lbal st _
            [some (HEvent.layerStart layer.config.languageName)] rfl hq0 ?_ ?_
            (by simp) ?_ (by simp)
          · simp [chiBal, hLL, optLayerBal, evLayerBal]
          · simp [chiBal, hLL]
          · intro ev hev h1
            simp [chiBal]
        · rw [if_pos (fun hc => Option.noConfusion hc)]
          simp only [List.cons_append, List.nil_append]
          refine emit_self_lbal st _
            [some HEvent.layerEnd, some (HEvent.layerStart layer.config.languageName)]
            rfl hq0 ?_ ?_ (by simp) ?_ (by simp)
          · simp [chiBal, hLL, optLayerBal, evLayerBal]
          · simp [chiBal, hLL]
          · intro ev hev h1
            simp [chiBal]
      · rcases hC : layer.captures with _ | ⟨item, itemsRest⟩
        · dsimp only
          rcases hS : layer.highlightEndStack.getLast? with _ | endByte
          · dsimp only
            unfold emitEvents
            by_cases hlt : st.byteOffset < st.source.length
            · rw [if_pos hlt]
              refine ⟨⟨?_, ?_⟩, ?_, ?_, ?_, ?_⟩
              · intro hn
                simp [hE]
              · intro nm hnm
                simp [hE] at hnm
              · by_cases hc : st.lastLayer = none <;>
                  simp [qBal, chiBal, hE, hc, optLayerBal, evLayerBal]
              · intro h
                simp at h
              · simp [chiBal]
              · intro nm h
                simp at h
            · rw [if_neg hlt]
              dsimp only [List.headD]
              refine ⟨⟨?_, ?_⟩, ?_, ?_, ?_, ?_⟩
              · intro hn
                simp [hE] at hn
              · intro nm hnm
                simp [hE] at hnm
              · by_cases hc : st.lastLayer = none <;>
                  simp [qBal, chiBal, hE, hc, optLayerBal]
              · intro h
                exact ⟨hq0, by simp [qBal, hE]⟩
              · simp [chiBal]
              · intro nm h
                cases h
          · dsimp only
            exact emit_zero_lbal st _ endByte (some HEvent.captureEnd) rfl hq0 rfl rfl
              (by simp)
        · dsimp only
          rcases hS : layer.highlightEndStack.getLast? with _ | endByte
          · dsimp only
            exact stepConsume_lbal inject st layer restLayers item itemsRest hE
              ⟨hqn, hqs⟩
          · dsimp only
            split
            · exact emit_zero_lbal st _ endByte (some HEvent.captureEnd) rfl hq0 rfl rfl
                (by simp)
            · exact stepConsume_lbal inject st layer restLayers item itemsRest hE
                ⟨hqn, hqs⟩
  · dsimp only
    have hmem0 : e0 ∈ st.nextEvents := by
      rw [hE]
      exact List.mem_cons_self e0 restEvents
    refine ⟨⟨?_, ?_⟩, ?_, ?_, ?_, ?_⟩
    · intro hn
      have h1 : none ∈ st.nextEvents := by
        rw [hE]
        exact List.mem_cons_of_mem e0 hn
      have h2 := hqn h1
      rw [hE] at h2
      cases h2
      simp at hn
    · intro nm hnm
      refine hqs nm ?_
      rw [hE]
      exact List.mem_cons_of_mem e0 hnm
    · have hqe : qBal st = optLayerBal e0 + (List.map optLayerBal restEvents).sum := by
        simp [qBal, hE]
      rw [hqe]
      have hq2 : qBal { st with nextEvents := restEvents }
          = (List.map optLayerBal restEvents).sum := rfl
      rw [hq2]
      have hch : chiBal { st with nextEvents := restEvents } = chiBal st := rfl
      rw [hch]
    · intro h
      subst h
      have h2 := hqn hmem0
      rw [hE] at h2
      simp at h2
      subst h2
      exact ⟨by simp [qBal, hE, optLayerBal], by simp [qBal]⟩
    · exact Int.le_refl _
    · intro nm h
      subst h
      have h3 := hqs nm hmem0
      have hch : chiBal { st with nextEvents := restEvents } = chiBal st := rfl
      rw [hch]
      simp [chiBal, h3]

/-- The active-layer flag is `0` or `1`. -/
theorem chiBal_bounds (st : IterState) : 0 ≤ chiBal st ∧ chiBal st ≤ 1 := by
  by_cases hc : st.lastLayer = none <;> simp [chiBal, hc]

/-- Over a finished run, the emitted `LayerStart`/`LayerEnd` counts, the
starting queue balance and the starting active-layer flag add up to the
final active-layer flag. -/
theorem runEvents_lbal (inject : InjectOracle) :
    ∀ (fuel : Nat) (st : IterState), QBalInv st →
      (runEvents inject fuel st).2.2 = true →
      (lsCount (runEvents inject fuel st).1 : Int) + chiBal st
        = (leCount (runEvents inject fuel st).1 : Int)
          + chiBal (runEvents inject fuel st).2.1 + qBal st := by
  intro fuel
  induction fuel with
  | zero =>
    intro st _ hfin
    simp [runEvents] at hfin
  | succ fuel ih =>
    intro st hq hfin
    have hbal := stepOnce_lbal inject st hq
    unfold runEvents at hfin ⊢
    rcases hcase : stepOnce inject st with ⟨eo, st'⟩ | st'
    · rw [hcase] at hbal hfin
      rcases eo with _ | e
      · dsimp only at hfin ⊢
        obtain ⟨hq', heq, hnn, hmono, hls⟩ := hbal
        obtain ⟨hq1, hq2⟩ := hnn rfl
        simp only [optLayerBal] at heq
        simp only [lsCount, leCount]
        omega
      · dsimp only at hfin ⊢
        obtain ⟨hq', heq, _, hmono, hls⟩ := hbal
        have hih := ih st' hq' hfin
        rcases e with ⟨a, b⟩ | nm | _ | hh | _
        · have h1 : lsCount (HEvent.source a b :: (runEvents inject fuel st').1)
              = lsCount (runEvents inject fuel st').1 := rfl
          have h2 : leCount (HEvent.source a b :: (runEvents inject fuel st').1)
              = leCount (runEvents inject fuel st').1 := rfl
          have hf : optLayerBal (some (HEvent.source a b)) = 0 := rfl
          rw [h1, h2]
          rw [hf] at heq
          omega
        · have h1 : lsCount (HEvent.layerStart nm :: (runEvents inject fuel st').1)
              = lsCount (runEvents inject fuel st').1 + 1 := rfl
          have h2 : leCount (HEvent.layerStart nm :: (runEvents inject fuel st').1)
              = leCount (runEvents inject fuel st').1 := rfl
          have hf : optLayerBal (some (HEvent.layerStart nm)) = 1 := rfl
          rw [h1, h2]
          rw [hf] at heq
          omega
        · have h1 : lsCount (HEvent.layerEnd :: (runEvents inject fuel st').1)
              = lsCount (runEvents inject fuel st').1 := rfl
          have h2 : leCount (HEvent.layerEnd :: (runEvents inject fuel st').1)
              = leCount (runEvents inject fuel st').1 + 1 := rfl
          have hf : optLayerBal (some HEvent.layerEnd) = -1 := rfl
          rw [h1, h2]
          rw [hf] at heq
          omega
        · have h1 : lsCount (HEvent.captureStart hh :: (runEvents inject fuel st').1)
              = lsCount (runEvents inject fuel st').1 := rfl
          have h2 : leCount (HEvent.captureStart hh :: (runEvents inject fuel st').1)
              = leCount (runEvents inject fuel st').1 := rfl
          have hf : optLayerBal (some (HEvent.captureStart hh)) = 0 := rfl
          rw [h1, h2]
          rw [hf] at heq
          omega
        · have h1 : lsCount (HEvent.captureEnd :: (runEvents inject fuel st').1)
              = lsCount (runEvents inject fuel st').1 := rfl
          have h2 : leCount (HEvent.captureEnd :: (runEvents inject fuel st').1)
              = leCount (runEvents inject fuel st').1 := rfl
          have hf : optLayerBal (some HEvent.captureEnd) = 0 := rfl
          rw [h1, h2]
          rw [hf] at heq
          omega
    · rw [hcase] at hbal hfin
      dsimp only at hfin ⊢
      obtain ⟨hq', hqe, hce⟩ := hbal
      have hih := ih st' hq' hfin
      rw [hqe, hce] at hih
      exact hih

/-- The active-layer flag never resets over a run. -/
theorem runEvents_chi_mono (inject : InjectOracle) :
    ∀ (fuel : Nat) (st : IterState), QBalInv st →
      chiBal st ≤ chiBal (runEvents inject fuel st).2.1 := by
  intro fuel
  induction fuel with
  | zero =>
    intro st _
    exact Int.le_refl _
  | succ fuel ih =>
    intro st hq
    have hbal := stepOnce_lbal inject st hq
    unfold runEvents
    rcases hcase : stepOnce inject st with ⟨eo, st'⟩ | st'
    · rw [hcase] at hbal
      rcases eo with _ | e
      · dsimp only
        exact hbal.2.2.2.1
      · dsimp only
        exact Int.le_trans hbal.2.2.2.1 (ih st' hbal.1)
    · rw [hcase] at hbal
      dsimp only
      have := ih st' hbal.1
      rw [hbal.2.2] at this
      exact this

/-- A `LayerStart` in the emitted stream means the run ends with an
active layer. -/
theorem runEvents_ls_active (inject : InjectOracle) :
    ∀ (fuel : Nat) (st : IterState), QBalInv st →
      (∃ nm, HEvent.layerStart nm ∈ (runEvents inject fuel st).1) →
      chiBal (runEvents inject fuel st).2.1 = 1 := by
  intro fuel
  induction fuel with
  | zero =>
    intro st _ hls
    obtain ⟨nm, hnm⟩ := hls
    simp [runEvents] at hnm
  | succ fuel ih =>
    intro st hq hls
    have hbal := stepOnce_lbal inject st hq
    unfold runEvents at hls ⊢
    rcases hcase : stepOnce inject st with ⟨eo, st'⟩ | st'
    · rw [hcase] at hbal hls
      rcases eo with _ | e
      · dsimp only at hls
        obtain ⟨nm, hnm⟩ := hls
        simp at hnm
      · dsimp only at hls ⊢
        obtain ⟨nm, hnm⟩ := hls
        rcases List.mem_cons.mp hnm with h1 | h1
        · have hse : chiBal st' = 1 := hbal.2.2.2.2 nm (by rw [h1])
          have hmono := runEvents_chi_mono inject fuel st' hbal.1
          have hb := chiBal_bounds (runEvents inject fuel st').2.1
          omega
        · exact ih st' hbal.1 ⟨nm, h1⟩
    · rw [hcase] at hbal hls
      dsimp only at hls ⊢
      exact ih st' hbal.1 hls

/-- A positive `LayerStart` count means some `LayerStart` event occurs. -/
theorem lsCount_pos : ∀ (evs : List HEvent), 0 < lsCount evs →
    ∃ nm, HEvent.layerStart nm ∈ evs := by
  intro evs
  induction evs with
  | nil =>
    intro h
    simp [lsCount] at h
  | cons e rest ih =>
    intro h
    rcases e with ⟨a, b⟩ | nm | _ | hh | _
    · obtain ⟨nm, hnm⟩ := ih (by simpa [lsCount] using h)
      exact ⟨nm, List.mem_cons_of_mem _ hnm⟩
    · exact ⟨nm, List.mem_cons_self _ _⟩
    · obtain ⟨nm, hnm⟩ := ih (by simpa [lsCount] using h)
      exact ⟨nm, List.mem_cons_of_mem _ hnm⟩
    · obtain ⟨nm, hnm⟩ := ih (by simpa [lsCount] using h)
      exact ⟨nm, List.mem_cons_of_mem _ hnm⟩
    · obtain ⟨nm, hnm⟩ := ih (by simpa [lsCount] using h)
      exact ⟨nm, List.mem_cons_of_mem _ hnm⟩

/-- Claim C2 (amended): the brackets need not balance.  Universally: in
every finished event stream of the iterator state `Highlighter.Highlight`
constructs, the `LayerStart` count equals the `LayerEnd` count plus one
exactly when a layer became active during the run — equivalently,
exactly when a `LayerStart` event occurs — and equals it otherwise, so
the final `LayerStart` of any stream that opens a layer is never closed
(a `LayerEnd` is only emitted together with the next `LayerStart` when
the active layer changes).  Moreover the claimed S2 stream is never
produced: for a two-byte source whose query matches nothing,
`newIterLayers` never returns (the empty-stream `continue` loops
forever), while the iterator given no layers emits exactly `Source(0,2)`
— no `LayerStart` or `LayerEnd` — and finishes. -/
theorem C2_amended :
    (∀ (source languageName : List Char) (layers : List IterLayer)
        (inject : InjectOracle) (fuel : Nat),
      (runEvents inject fuel (mkInitState source languageName layers)).2.2 = true →
      ((lsCount (runEvents inject fuel (mkInitState source languageName layers)).1 : Int)
          = (leCount (runEvents inject fuel (mkInitState source languageName layers)).1 : Int)
            + chiBal (runEvents inject fuel (mkInitState source languageName layers)).2.1) ∧
      ((∃ nm, HEvent.layerStart nm
            ∈ (runEvents inject fuel (mkInitState source languageName layers)).1) ↔
        (runEvents inject fuel (mkInitState source languageName layers)).2.1.lastLayer
          ≠ none)) ∧
    (∀ fuel : Nat,
      newIterLayersGo exPoEmpty exNoCb "ab".toList [] exCfg 0 [wholeSourceRange] fuel = none) ∧
    (runEvents exNoInject 10 (mkInitState "ab".toList "L".toList [])).1
      = [HEvent.source 0 2] ∧
    (runEvents exNoInject 10 (mkInitState "ab".toList "L".toList [])).2.2 = true := by
  refine ⟨?_, fun fuel => newIterLayersLoop_empty_stream_diverges _ _ _ _ fuel [],
    by decide, by decide⟩
  intro source languageName layers inject fuel hfin
  have hq0 : QBalInv (mkInitState source languageName layers) := by
    constructor
    · intro h
      simp [mkInitState] at h
    · intro nm h
      simp [mkInitState] at h
  have heq := runEvents_lbal inject fuel (mkInitState source languageName layers) hq0 hfin
  have hchi0 : chiBal (mkInitState source languageName layers) = 0 := by
    simp [chiBal, mkInitState]
  have hqb0 : qBal (mkInitState source languageName layers) = 0 := by
    simp [qBal, mkInitState]
  constructor
  · omega
  · constructor
    · intro hls
      have h1 := runEvents_ls_active inject fuel (mkInitState source languageName layers)
        hq0 hls
      intro hc
      simp [chiBal, hc] at h1
    · intro hc
      have hce : chiBal (runEvents inject fuel
          (mkInitState source languageName layers)).2.1 = 1 := by
        simp [chiBal, hc]
      have hpos : 0 < lsCount (runEvents inject fuel
          (mkInitState source languageName layers)).1 := by
        omega
      exact lsCount_pos _ hpos
